import Mathlib

/-!
Verification of the `File_Indexer.py` word-frequency indexer.

This file gives a shallow embedding, in Lean 4, of the program's data model
and operations:

* the lexicographic tuple order Python uses on `(count, word)` pairs,
* the CPython `heapq` operations (`_siftdown`, `_siftup`, `heappush`,
  `heappop`, `heapify`) exactly as implemented in CPython's `heapq.py`,
* the `WordFreqTracker` class (`add_instance`, `__manage_top10`,
  `print_top10`),
* the word generator `__word_gen` of `FileProcessingThread` and the file
  parsing loop,
* the directory walker of `DirectorySearchThread`,
* an interleaving semantics for the thread pool / endstate protocol of
  `WorkerThreadPool` (`add_file`, `notify_thread_finished`,
  `wait_for_endstate`, and the worker run loop).

Theorems about these definitions settle the specification claims.
-/

namespace FileIndexer

/-! ### The order on heap entries

Python 2 compares `str` values lexicographically by character code and
tuples componentwise, so a heap entry `(count, word)` is ordered first by
count, then by the word. -/

/-- Lexicographic strict comparison of two character lists, as Python
compares strings. -/
def strLtL : List Char → List Char → Bool
  | [], [] => false
  | [], _ :: _ => true
  | _ :: _, [] => false
  | a :: as, b :: bs =>
    if a < b then true
    else if b < a then false
    else strLtL as bs

/-- Strict comparison of two strings, Python style. -/
def strLt (a b : String) : Bool := strLtL a.data b.data

/-- A heap entry: a `(count, word)` pair as pushed by `__manage_top10`. -/
abbrev Entry := Nat × String

/-- Placeholder entry used as the default for out-of-range list reads. -/
def dEnt : Entry := (0, "")

/-- Python tuple comparison on `(count, word)` pairs: compare counts, then
words. -/
def entLt (a b : Entry) : Bool :=
  decide (a.1 < b.1) || (decide (a.1 = b.1) && strLt a.2 b.2)

/-- Non-strict entry order: `a` is at most `b` when `b` is not strictly
below `a`. -/
def entLE (a b : Entry) : Prop := entLt b a = false

theorem strLtL_irrefl : ∀ l : List Char, strLtL l l = false := by
  intro l
  induction l with
  | nil => rfl
  | cons a as ih => simp [strLtL, ih]

theorem strLtL_trans : ∀ {a b c : List Char},
    strLtL a b = true → strLtL b c = true → strLtL a c = true := by
  intro a
  induction a with
  | nil =>
    intro b c hab hbc
    cases b with
    | nil => simp [strLtL] at hab
    | cons y ys =>
      cases c with
      | nil => simp [strLtL] at hbc
      | cons z zs => simp [strLtL]
  | cons x xs ih =>
    intro b c hab hbc
    cases b with
    | nil => simp [strLtL] at hab
    | cons y ys =>
      cases c with
      | nil => simp [strLtL] at hbc
      | cons z zs =>
        simp only [strLtL] at hab hbc ⊢
        rcases lt_trichotomy x y with hxy | hxy | hxy
        · rcases lt_trichotomy y z with hyz | hyz | hyz
          · simp [lt_trans hxy hyz]
          · simp [hyz ▸ hxy]
          · simp [hxy, not_lt_of_gt hxy] at hab
            rcases lt_trichotomy x z with hxz | hxz | hxz
            · simp [hxz]
            · simp [hyz] at hbc
              simp [not_lt_of_gt hyz] at hbc
            · simp [hyz, not_lt_of_gt hyz] at hbc
        · subst hxy
          simp [lt_irrefl] at hab
          rcases lt_trichotomy x z with hxz | hxz | hxz
          · simp [hxz]
          · subst hxz
            simp [lt_irrefl] at hbc ⊢
            exact ih hab hbc
          · simp [hxz, not_lt_of_gt hxz] at hbc
        · simp [not_lt_of_gt hxy, hxy] at hab

theorem strLtL_antisymm : ∀ {a b : List Char},
    strLtL a b = false → strLtL b a = false → a = b := by
  intro a
  induction a with
  | nil =>
    intro b hab _
    cases b with
    | nil => rfl
    | cons y ys => simp [strLtL] at hab
  | cons x xs ih =>
    intro b hab hba
    cases b with
    | nil => simp [strLtL] at hba
    | cons y ys =>
      simp only [strLtL] at hab hba
      rcases lt_trichotomy x y with hxy | hxy | hxy
      · simp [hxy] at hab
      · subst hxy
        simp [lt_irrefl] at hab hba
        rw [ih hab hba]
      · simp [hxy] at hba

theorem strLtL_asymm {a b : List Char} (h : strLtL a b = true) : strLtL b a = false := by
  by_contra hc
  have hba : strLtL b a = true := by
    cases hh : strLtL b a with
    | false => exact absurd hh hc
    | true => rfl
  have hirr := strLtL_trans h hba
  rw [strLtL_irrefl] at hirr
  simp at hirr

theorem entLt_irrefl (a : Entry) : entLt a a = false := by
  simp [entLt, strLt, strLtL_irrefl]

theorem entLt_trans {a b c : Entry} (hab : entLt a b = true) (hbc : entLt b c = true) :
    entLt a c = true := by
  simp only [entLt, Bool.or_eq_true, Bool.and_eq_true, decide_eq_true_eq] at hab hbc ⊢
  rcases hab with h1 | ⟨h1, h1s⟩ <;> rcases hbc with h2 | ⟨h2, h2s⟩
  · exact Or.inl (Nat.lt_trans h1 h2)
  · exact Or.inl (h2 ▸ h1)
  · exact Or.inl (h1 ▸ h2)
  · exact Or.inr ⟨h1.trans h2, strLtL_trans h1s h2s⟩

theorem entLt_asymm {a b : Entry} (h : entLt a b = true) : entLt b a = false := by
  by_contra hc
  have hba : entLt b a = true := by
    cases hh : entLt b a with
    | false => exact absurd hh hc
    | true => rfl
  have hirr := entLt_trans h hba
  rw [entLt_irrefl] at hirr
  simp at hirr

theorem entLt_antisymm {a b : Entry} (hab : entLt a b = false) (hba : entLt b a = false) :
    a = b := by
  simp only [entLt, Bool.or_eq_false_iff, Bool.and_eq_false_iff, decide_eq_false_iff_not] at hab hba
  have h1 : a.1 = b.1 := by omega
  rcases hab.2 with h | hs
  · exact absurd h1 h
  · rcases hba.2 with h2 | hs2
    · exact absurd h1.symm h2
    · have h2s : a.2 = b.2 := String.ext (strLtL_antisymm hs hs2)
      exact Prod.ext h1 h2s

theorem entLE_refl (a : Entry) : entLE a a := entLt_irrefl a

theorem entLE_of_lt {a b : Entry} (h : entLt a b = true) : entLE a b := entLt_asymm h

theorem entLE_trans {a b c : Entry} (hab : entLE a b) (hbc : entLE b c) : entLE a c := by
  unfold entLE at hab hbc ⊢
  by_contra hc
  have hca : entLt c a = true := by
    cases hh : entLt c a with
    | false => exact absurd hh hc
    | true => rfl
  cases hba : entLt a b with
  | true =>
    have hcb := entLt_trans hca hba
    rw [hbc] at hcb
    simp at hcb
  | false =>
    have heq : a = b := entLt_antisymm hba hab
    have hcb : entLt c b = true := heq ▸ hca
    rw [hbc] at hcb
    simp at hcb

theorem entLt_le_trans {a b c : Entry} (hab : entLt a b = true) (hbc : entLE b c) : entLE a c := by
  unfold entLE at hbc ⊢
  by_contra hc
  have hca : entLt c a = true := by
    cases hh : entLt c a with
    | false => exact absurd hh hc
    | true => rfl
  have hcb := entLt_trans hca hab
  rw [hbc] at hcb
  simp at hcb

theorem entLE_count {a b : Entry} (h : entLE a b) : a.1 ≤ b.1 := by
  unfold entLE entLt at h
  simp only [Bool.or_eq_false_iff, Bool.and_eq_false_iff, decide_eq_false_iff_not] at h
  omega

theorem entLt_of_count {a b : Entry} (h : a.1 < b.1) : entLt a b = true := by
  simp [entLt, h]

end FileIndexer

namespace FileIndexer

/-! ### List index helpers -/

theorem getD_set_self {α : Type} {l : List α} {i : Nat} (h : i < l.length) (x d : α) :
    (l.set i x).getD i d = x := by
  simp [List.getD_eq_getElem?_getD, List.getElem?_set, h]

theorem getD_set_ne {α : Type} {l : List α} {i j : Nat} (h : i ≠ j) (x d : α) :
    (l.set i x).getD j d = l.getD j d := by
  simp [List.getD_eq_getElem?_getD, List.getElem?_set, h]

theorem coe_set_cons {α : Type} : ∀ {l : List α} {i : Nat}, i < l.length → ∀ (x d : α),
    (l.getD i d) ::ₘ (↑(l.set i x) : Multiset α) = x ::ₘ (↑l : Multiset α) := by
  intro l
  induction l with
  | nil => intro i h x d; simp at h
  | cons a t ih =>
    intro i h x d
    cases i with
    | zero =>
      show a ::ₘ (x ::ₘ (↑t : Multiset α)) = x ::ₘ (a ::ₘ (↑t : Multiset α))
      exact Multiset.cons_swap a x ↑t
    | succ i =>
      have hi : i < t.length := by simpa using h
      show (t.getD i d) ::ₘ (a ::ₘ (↑(t.set i x) : Multiset α)) = x ::ₘ (a ::ₘ (↑t : Multiset α))
      rw [Multiset.cons_swap, ih hi x d, Multiset.cons_swap]

theorem getD_append_left {α : Type} {l l2 : List α} {j : Nat} (h : j < l.length) (d : α) :
    ((l ++ l2).getD j d) = l.getD j d := by
  simp [List.getD_eq_getElem?_getD, List.getElem?_append_left h]

theorem getD_append_right_self {α : Type} (l : List α) (x d : α) :
    ((l ++ [x]).getD l.length d) = x := by
  simp [List.getD_eq_getElem?_getD, List.getElem?_append_right (Nat.le_refl l.length)]

theorem getD_dropLast {α : Type} {l : List α} {j : Nat} (h : j < l.length - 1) (d : α) :
    l.dropLast.getD j d = l.getD j d := by
  have hlt : j < l.dropLast.length := by simpa using h
  rw [List.getD_eq_getElem (_ : List α) d hlt]
  have hlen : j < l.length := by omega
  rw [List.getD_eq_getElem (_ : List α) d hlen]
  simp [List.getElem_dropLast]

theorem getD_mem {α : Type} {l : List α} {i : Nat} (h : i < l.length) (d : α) :
    l.getD i d ∈ l := by
  rw [List.getD_eq_getElem (_ : List α) d h]
  exact List.getElem_mem h

theorem mem_getD {α : Type} {l : List α} {a : α} (h : a ∈ l) (d : α) :
    ∃ i, i < l.length ∧ l.getD i d = a := by
  rcases List.mem_iff_get.mp h with ⟨⟨i, hi⟩, hget⟩
  refine ⟨i, hi, ?_⟩
  rw [List.getD_eq_getElem (_ : List α) d hi]
  simpa using hget

/-! ### Binary tree indexing

The `heapq` module views a list as a binary tree: the children of index
`i` are `2*i+1` and `2*i+2`, the parent of index `j` is `(j-1)/2`. -/

/-- Parent index of a node, `(pos - 1) >> 1` in `heapq._siftdown`. -/
def parentIdx (j : Nat) : Nat := (j - 1) / 2

/-- Membership of index `j` in the subtree rooted at index `i`. -/
inductive InSub (i : Nat) : Nat → Prop
  | refl : InSub i i
  | step {j : Nat} : InSub i (parentIdx j) → 0 < j → InSub i j

theorem parentIdx_lt {j : Nat} (h : 0 < j) : parentIdx j < j := by
  unfold parentIdx; omega

theorem parentIdx_child_left (i : Nat) : parentIdx (2*i+1) = i := by
  unfold parentIdx; omega

theorem parentIdx_child_right (i : Nat) : parentIdx (2*i+2) = i := by
  unfold parentIdx; omega

theorem child_of_parentIdx {j : Nat} (h : 0 < j) :
    j = 2 * parentIdx j + 1 ∨ j = 2 * parentIdx j + 2 := by
  unfold parentIdx; omega

theorem InSub.le {i j : Nat} (h : InSub i j) : i ≤ j := by
  induction h with
  | refl => exact Nat.le_refl i
  | step hp hj ih => exact Nat.le_trans ih (Nat.le_of_lt (parentIdx_lt hj))

theorem InSub.inv {i j : Nat} (h : InSub i j) : j = i ∨ (0 < j ∧ InSub i (parentIdx j)) := by
  cases h with
  | refl => exact Or.inl rfl
  | step hp hj => exact Or.inr ⟨hj, hp⟩

theorem InSub.trans {i j k : Nat} (h1 : InSub i j) (h2 : InSub j k) : InSub i k := by
  induction h2 with
  | refl => exact h1
  | step hp hj ih => exact InSub.step ih hj

theorem InSub_zero (k : Nat) : InSub 0 k := by
  induction k using Nat.strong_induction_on with
  | _ k ih =>
    cases k with
    | zero => exact InSub.refl
    | succ m =>
      exact InSub.step (ih _ (parentIdx_lt (Nat.succ_pos m))) (Nat.succ_pos m)

theorem InSub.child_left {i j : Nat} (h : InSub i j) : InSub i (2*j+1) := by
  refine InSub.step ?_ (by omega)
  rw [parentIdx_child_left]; exact h

theorem InSub.child_right {i j : Nat} (h : InSub i j) : InSub i (2*j+2) := by
  refine InSub.step ?_ (by omega)
  rw [parentIdx_child_right]; exact h

theorem InSub_of_parent {i j : Nat} (hj : 0 < j) (h : InSub i (parentIdx j)) : InSub i j :=
  InSub.step h hj

theorem InSub_comparable : ∀ k {i j : Nat}, InSub i k → InSub j k → i ≤ j → InSub i j := by
  intro k
  induction k using Nat.strong_induction_on with
  | _ k ih =>
    intro i j hik hjk hij
    rcases hjk.inv with rfl | ⟨hk, hjp⟩
    · exact hik
    · rcases hik.inv with hki | ⟨_, hip⟩
      · have hle : j ≤ i := hki ▸ hjk.le
        have heq : i = j := Nat.le_antisymm hij hle
        exact heq ▸ InSub.refl
      · exact ih (parentIdx k) (parentIdx_lt hk) hip hjp hij

theorem InSub_split {i p : Nat} (h : InSub i p) (hne : p ≠ i) :
    InSub (2*i+1) p ∨ InSub (2*i+2) p := by
  induction h with
  | refl => exact absurd rfl hne
  | @step j hp hj ih =>
    by_cases hpe : parentIdx j = i
    · rcases child_of_parentIdx hj with hc | hc
      · exact Or.inl (by rw [hc, hpe]; exact InSub.refl)
      · exact Or.inr (by rw [hc, hpe]; exact InSub.refl)
    · rcases ih hpe with h1 | h1
      · exact Or.inl (InSub.step h1 hj)
      · exact Or.inr (InSub.step h1 hj)

end FileIndexer

namespace FileIndexer

/-! ### The CPython `heapq` operations

These definitions mirror `heapq.py` from CPython: `_siftdown` walks an
item up toward the root, `_siftup` moves a hole down to a leaf and then
calls `_siftdown`, `heappush` appends and sifts down from the new leaf,
`heappop` swaps the last element into the root and sifts up, `heapify`
sifts up every internal node from the last to the first.  The loops are
expressed with an explicit fuel argument that is always large enough, so
the Lean functions compute exactly the Python loops. -/

/-- Loop of `heapq._siftdown(heap, startpos, pos)` after reading
`newitem = heap[pos]`: while `pos > startpos`, compare `newitem` with the
parent, move the parent down and continue, else stop; finally store
`newitem` at the stop position.  The fuel is at least `pos`, which bounds
the number of iterations. -/
def siftdownLoop : Nat → List Entry → Nat → Nat → Entry → List Entry
  | 0, heap, _, pos, newitem => heap.set pos newitem
  | fuel+1, heap, startpos, pos, newitem =>
    if startpos < pos then
      if entLt newitem (heap.getD (parentIdx pos) dEnt) then
        siftdownLoop fuel (heap.set pos (heap.getD (parentIdx pos) dEnt))
          startpos (parentIdx pos) newitem
      else heap.set pos newitem
    else heap.set pos newitem

/-- The function `heapq._siftdown(heap, startpos, pos)`. -/
def siftdown (heap : List Entry) (startpos pos : Nat) : List Entry :=
  siftdownLoop pos heap startpos pos (heap.getD pos dEnt)

/-- Child selection of `heapq._siftup`: the right child `2*pos+2` is picked
exactly when it exists and the left child is not strictly smaller. -/
def siftupChild (heap : List Entry) (pos : Nat) : Nat :=
  if 2*pos+2 < heap.length &&
      !(entLt (heap.getD (2*pos+1) dEnt) (heap.getD (2*pos+2) dEnt)) then 2*pos+2
  else 2*pos+1

/-- Loop of `heapq._siftup(heap, pos)`: while the left child exists, pick
the smaller child, move it up into `pos` and descend into it; returns the
final heap and hole position.  The fuel is at least `heap.length`, which
bounds the number of iterations. -/
def siftupLoop : Nat → List Entry → Nat → List Entry × Nat
  | 0, heap, pos => (heap, pos)
  | fuel+1, heap, pos =>
    if 2*pos+1 < heap.length then
      siftupLoop fuel (heap.set pos (heap.getD (siftupChild heap pos) dEnt)) (siftupChild heap pos)
    else (heap, pos)

/-- The function `heapq._siftup(heap, pos)`: record `newitem = heap[pos]`,
move the hole down to a leaf, store `newitem` there and sift it down
with `startpos = pos`. -/
def siftup (heap : List Entry) (pos : Nat) : List Entry :=
  let newitem := heap.getD pos dEnt
  let walked := siftupLoop heap.length heap pos
  siftdown (walked.1.set walked.2 newitem) pos walked.2

/-- The function `heapq.heappush(heap, item)`. -/
def heappush (heap : List Entry) (item : Entry) : List Entry :=
  siftdown (heap ++ [item]) 0 heap.length

/-- The function `heapq.heappop(heap)`: pop the last element; if the rest
is non-empty, the root is returned after the last element is moved into
its place and sifted up.  Returns `none` for an empty heap (where Python
raises `IndexError`). -/
def heappop (heap : List Entry) : Option (Entry × List Entry) :=
  match heap.getLast? with
  | none => none
  | some lastelt =>
    let rest := heap.dropLast
    if rest.isEmpty then some (lastelt, [])
    else some (rest.getD 0 dEnt, siftup (rest.set 0 lastelt) 0)

/-- The function `heapq.heapify(x)`: `for i in reversed(range(n//2)):
_siftup(x, i)`. -/
def heapify (heap : List Entry) : List Entry :=
  (List.range (heap.length / 2)).reverse.foldl (fun h i => siftup h i) heap

/-! ### Heap predicates -/

/-- The min-heap invariant maintained by `heapq`: every node is at most
each of its children, stated through the parent map. -/
def IsHeap (h : List Entry) : Prop :=
  ∀ j, 0 < j → j < h.length → entLE (h.getD (parentIdx j) dEnt) (h.getD j dEnt)

/-- The heap invariant restricted to the subtree rooted at `i`: every
edge whose parent endpoint lies in the subtree is ordered. -/
def SubHeap (h : List Entry) (i : Nat) : Prop :=
  ∀ j, 0 < j → j < h.length → InSub i (parentIdx j) →
    entLE (h.getD (parentIdx j) dEnt) (h.getD j dEnt)

instance (a b : Entry) : Decidable (entLE a b) := by
  unfold entLE; exact inferInstance

instance (h : List Entry) : Decidable (IsHeap h) := by
  unfold IsHeap
  have hiff : (∀ j, 0 < j → j < h.length →
      entLE (h.getD (parentIdx j) dEnt) (h.getD j dEnt)) ↔
      (∀ j, (_ : j < h.length) → 0 < j →
        entLE (h.getD (parentIdx j) dEnt) (h.getD j dEnt)) := by
    constructor
    · intro hh j hlt hpos; exact hh j hpos hlt
    · intro hh j hpos hlt; exact hh j hlt hpos
  exact decidable_of_iff _ hiff.symm

theorem IsHeap_iff_SubHeap_zero (h : List Entry) : IsHeap h ↔ SubHeap h 0 := by
  constructor
  · intro hh j h1 h2 _; exact hh j h1 h2
  · intro hh j h1 h2; exact hh j h1 h2 (InSub_zero _)

theorem SubHeap_mono {h : List Entry} {i k : Nat} (hh : SubHeap h i) (hik : InSub i k) :
    SubHeap h k := by
  intro j h1 h2 hin
  exact hh j h1 h2 (hik.trans hin)

/-- In a subtree satisfying the heap invariant, the root is at most every
node of the subtree. -/
theorem SubHeap_root_le {h : List Entry} {i : Nat} (hh : SubHeap h i) :
    ∀ j, InSub i j → j < h.length → entLE (h.getD i dEnt) (h.getD j dEnt) := by
  intro j
  induction j using Nat.strong_induction_on with
  | _ j ih =>
    intro hin hlt
    rcases hin.inv with hji | ⟨hpos, hpin⟩
    · subst hji; exact entLE_refl _
    · have hple : entLE (h.getD i dEnt) (h.getD (parentIdx j) dEnt) :=
        ih (parentIdx j) (parentIdx_lt hpos) hpin (Nat.lt_of_le_of_lt (Nat.le_of_lt (parentIdx_lt hpos)) hlt)
      exact entLE_trans hple (hh j hpos hlt hpin)

/-- In a heap, the root is at most every element. -/
theorem IsHeap_root_le {h : List Entry} (hh : IsHeap h) :
    ∀ j, j < h.length → entLE (h.getD 0 dEnt) (h.getD j dEnt) := by
  intro j hlt
  exact SubHeap_root_le ((IsHeap_iff_SubHeap_zero h).mp hh) j (InSub_zero j) hlt

/-- In a heap, the root count is at most every stored count. -/
theorem IsHeap_root_count_le {h : List Entry} (hh : IsHeap h) :
    ∀ e ∈ h, (h.getD 0 dEnt).1 ≤ e.1 := by
  intro e he
  rcases mem_getD he dEnt with ⟨i, hi, rfl⟩
  exact entLE_count (IsHeap_root_le hh i hi)

end FileIndexer

namespace FileIndexer

/-! ### Correctness of `_siftdown`

The loop invariant: all subtree edges not pointing into the hole are
ordered (`hA`), the hole's children dominate the item being placed
(`hB`), and the hole's children dominate the hole's parent (`hC`). -/

theorem siftdownLoop_step (fuel : Nat) (h : List Entry) (startpos pos : Nat) (newitem : Entry)
    (hg : startpos < pos) (hl : entLt newitem (h.getD (parentIdx pos) dEnt) = true) :
    siftdownLoop (fuel+1) h startpos pos newitem =
      siftdownLoop fuel (h.set pos (h.getD (parentIdx pos) dEnt)) startpos (parentIdx pos) newitem := by
  simp only [siftdownLoop]
  rw [if_pos hg, if_pos hl]

theorem siftdownLoop_stop (fuel : Nat) (h : List Entry) (startpos pos : Nat) (newitem : Entry)
    (hstop : ¬ startpos < pos ∨ entLt newitem (h.getD (parentIdx pos) dEnt) = false) :
    siftdownLoop (fuel+1) h startpos pos newitem = h.set pos newitem := by
  simp only [siftdownLoop]
  rcases hstop with hg | hl
  · rw [if_neg hg]
  · by_cases hg : startpos < pos
    · have hl2 : ¬ entLt newitem (h.getD (parentIdx pos) dEnt) = true := by rw [hl]; simp
      rw [if_pos hg, if_neg hl2]
    · rw [if_neg hg]

theorem siftdown_place_spec (i : Nat) (h : List Entry) (pos : Nat) (newitem : Entry)
    (hlen : pos < h.length) (hin : InSub i pos)
    (hA : ∀ j, 0 < j → j < h.length → j ≠ pos → InSub i (parentIdx j) →
      entLE (h.getD (parentIdx j) dEnt) (h.getD j dEnt))
    (hB : ∀ j, 0 < j → j < h.length → parentIdx j = pos → entLE newitem (h.getD j dEnt))
    (hstop : 0 < pos → InSub i (parentIdx pos) → entLE (h.getD (parentIdx pos) dEnt) newitem) :
    (h.set pos newitem).length = h.length ∧
    SubHeap (h.set pos newitem) i ∧
    (h.getD pos dEnt) ::ₘ (↑(h.set pos newitem) : Multiset Entry) =
      newitem ::ₘ (↑h : Multiset Entry) ∧
    (∀ j, ¬ InSub i j → (h.set pos newitem).getD j dEnt = h.getD j dEnt) := by
  refine ⟨List.length_set h pos newitem, ?_, coe_set_cons hlen newitem dEnt, ?_⟩
  · intro j hj hjlen hjin
    rw [List.length_set] at hjlen
    by_cases hjp : j = pos
    · have hposj : 0 < pos := hjp ▸ hj
      have hinp : InSub i (parentIdx pos) := hjp ▸ hjin
      have hne1 : pos ≠ parentIdx pos := Nat.ne_of_gt (parentIdx_lt hposj)
      rw [hjp, getD_set_ne hne1 newitem dEnt, getD_set_self hlen newitem dEnt]
      exact hstop hposj hinp
    · by_cases hpjp : parentIdx j = pos
      · rw [hpjp, getD_set_self hlen newitem dEnt, getD_set_ne (Ne.symm hjp) newitem dEnt]
        exact hB j hj hjlen hpjp
      · rw [getD_set_ne (fun hh => hpjp hh.symm) newitem dEnt,
          getD_set_ne (Ne.symm hjp) newitem dEnt]
        exact hA j hj hjlen hjp hjin
  · intro j hjout
    have hne : pos ≠ j := fun hh => hjout (hh ▸ hin)
    exact getD_set_ne hne newitem dEnt

theorem siftdownLoop_spec (i : Nat) : ∀ (fuel : Nat) (h : List Entry) (pos : Nat) (newitem : Entry),
    pos ≤ fuel → pos < h.length → InSub i pos →
    (∀ j, 0 < j → j < h.length → j ≠ pos → InSub i (parentIdx j) →
      entLE (h.getD (parentIdx j) dEnt) (h.getD j dEnt)) →
    (∀ j, 0 < j → j < h.length → parentIdx j = pos → entLE newitem (h.getD j dEnt)) →
    (i < pos → ∀ j, 0 < j → j < h.length → parentIdx j = pos →
      entLE (h.getD (parentIdx pos) dEnt) (h.getD j dEnt)) →
    (siftdownLoop fuel h i pos newitem).length = h.length ∧
    SubHeap (siftdownLoop fuel h i pos newitem) i ∧
    (h.getD pos dEnt) ::ₘ (↑(siftdownLoop fuel h i pos newitem) : Multiset Entry) =
      newitem ::ₘ (↑h : Multiset Entry) ∧
    (∀ j, ¬ InSub i j → (siftdownLoop fuel h i pos newitem).getD j dEnt = h.getD j dEnt) := by
  intro fuel
  induction fuel with
  | zero =>
    intro h pos newitem hfuel hlen hin hA hB hC
    rw [show siftdownLoop 0 h i pos newitem = h.set pos newitem from rfl]
    refine siftdown_place_spec i h pos newitem hlen hin hA hB ?_
    intro hp _
    exfalso; omega
  | succ fuel ih =>
    intro h pos newitem hfuel hlen hin hA hB hC
    by_cases hguard : i < pos
    · have hposge : 0 < pos := Nat.lt_of_le_of_lt (Nat.zero_le i) hguard
      have hplt : parentIdx pos < pos := parentIdx_lt hposge
      have hne1 : pos ≠ parentIdx pos := Nat.ne_of_gt hplt
      by_cases hlt : entLt newitem (h.getD (parentIdx pos) dEnt) = true
      · rw [siftdownLoop_step fuel h i pos newitem hguard hlt]
        have hin2 : InSub i (parentIdx pos) := by
          rcases hin.inv with hpi | ⟨_, hp⟩
          · exfalso; omega
          · exact hp
        have hlen2 : (h.set pos (h.getD (parentIdx pos) dEnt)).length = h.length :=
          List.length_set h pos _
        have hgetp : (h.set pos (h.getD (parentIdx pos) dEnt)).getD (parentIdx pos) dEnt =
            h.getD (parentIdx pos) dEnt := getD_set_ne hne1 _ dEnt
        have hA2 : ∀ j, 0 < j → j < (h.set pos (h.getD (parentIdx pos) dEnt)).length →
            j ≠ parentIdx pos → InSub i (parentIdx j) →
            entLE ((h.set pos (h.getD (parentIdx pos) dEnt)).getD (parentIdx j) dEnt)
              ((h.set pos (h.getD (parentIdx pos) dEnt)).getD j dEnt) := by
          intro j hj hjlen hjne hjin
          rw [hlen2] at hjlen
          by_cases hjp : j = pos
          · rw [hjp, getD_set_ne hne1 _ dEnt, getD_set_self hlen _ dEnt]
            exact entLE_refl _
          · by_cases hpjp : parentIdx j = pos
            · rw [hpjp, getD_set_self hlen _ dEnt, getD_set_ne (Ne.symm hjp) _ dEnt]
              exact hC hguard j hj hjlen hpjp
            · rw [getD_set_ne (fun hh => hpjp hh.symm) _ dEnt,
                getD_set_ne (Ne.symm hjp) _ dEnt]
              exact hA j hj hjlen hjp hjin
        have hB2 : ∀ j, 0 < j → j < (h.set pos (h.getD (parentIdx pos) dEnt)).length →
            parentIdx j = parentIdx pos →
            entLE newitem ((h.set pos (h.getD (parentIdx pos) dEnt)).getD j dEnt) := by
          intro j hj hjlen hjp
          rw [hlen2] at hjlen
          by_cases hjpos : j = pos
          · rw [hjpos, getD_set_self hlen _ dEnt]
            exact entLE_of_lt hlt
          · rw [getD_set_ne (Ne.symm hjpos) _ dEnt]
            refine entLt_le_trans hlt ?_
            rw [← hjp]
            refine hA j hj hjlen hjpos ?_
            rw [hjp]; exact hin2
        have hC2 : i < parentIdx pos →
            ∀ j, 0 < j → j < (h.set pos (h.getD (parentIdx pos) dEnt)).length →
            parentIdx j = parentIdx pos →
            entLE ((h.set pos (h.getD (parentIdx pos) dEnt)).getD (parentIdx (parentIdx pos)) dEnt)
              ((h.set pos (h.getD (parentIdx pos) dEnt)).getD j dEnt) := by
          intro hip j hj hjlen hjp
          rw [hlen2] at hjlen
          have hppos : 0 < parentIdx pos := Nat.lt_of_le_of_lt (Nat.zero_le i) hip
          have hgplt : parentIdx (parentIdx pos) < parentIdx pos := parentIdx_lt hppos
          have hgpne : pos ≠ parentIdx (parentIdx pos) := by omega
          have hingp : InSub i (parentIdx (parentIdx pos)) := by
            rcases hin2.inv with hpi | ⟨_, hp⟩
            · exfalso; omega
            · exact hp
          have hgp_pp : entLE (h.getD (parentIdx (parentIdx pos)) dEnt)
              (h.getD (parentIdx pos) dEnt) :=
            hA (parentIdx pos) hppos (by omega) (Nat.ne_of_lt hplt) hingp
          rw [getD_set_ne hgpne _ dEnt]
          by_cases hjpos : j = pos
          · rw [hjpos, getD_set_self hlen _ dEnt]
            exact hgp_pp
          · rw [getD_set_ne (Ne.symm hjpos) _ dEnt]
            refine entLE_trans hgp_pp ?_
            rw [← hjp]
            refine hA j hj hjlen hjpos ?_
            rw [hjp]; exact hin2
        obtain ⟨hl2, hsh2, hms2, hfr2⟩ :=
          ih (h.set pos (h.getD (parentIdx pos) dEnt)) (parentIdx pos) newitem
            (by omega) (by omega) hin2 hA2 hB2 hC2
        refine ⟨by rw [hl2, hlen2], hsh2, ?_, ?_⟩
        · rw [hgetp] at hms2
          have hcoe : (h.getD pos dEnt) ::ₘ (↑(h.set pos (h.getD (parentIdx pos) dEnt)) : Multiset Entry) =
              (h.getD (parentIdx pos) dEnt) ::ₘ (↑h : Multiset Entry) :=
            coe_set_cons hlen _ dEnt
          have hstep2 : (h.getD (parentIdx pos) dEnt) ::ₘ ((h.getD pos dEnt) ::ₘ
              (↑(siftdownLoop fuel (h.set pos (h.getD (parentIdx pos) dEnt)) i (parentIdx pos) newitem) : Multiset Entry)) =
              (h.getD (parentIdx pos) dEnt) ::ₘ (newitem ::ₘ (↑h : Multiset Entry)) := by
            rw [Multiset.cons_swap, hms2, Multiset.cons_swap, hcoe, Multiset.cons_swap]
          exact (Multiset.cons_inj_right _).mp hstep2
        · intro j hjout
          rw [hfr2 j hjout]
          have hne2 : pos ≠ j := fun hh => hjout (hh ▸ hin)
          exact getD_set_ne hne2 _ dEnt
      · have hlf : entLt newitem (h.getD (parentIdx pos) dEnt) = false := by
          cases hb : entLt newitem (h.getD (parentIdx pos) dEnt) with
          | false => rfl
          | true => exact absurd hb hlt
        rw [siftdownLoop_stop fuel h i pos newitem (Or.inr hlf)]
        refine siftdown_place_spec i h pos newitem hlen hin hA hB ?_
        intro _ _
        exact hlf
    · rw [siftdownLoop_stop fuel h i pos newitem (Or.inl hguard)]
      refine siftdown_place_spec i h pos newitem hlen hin hA hB ?_
      intro hp hinp
      exfalso
      have h1 := hinp.le
      have h2 := parentIdx_lt hp
      have h3 := hin.le
      omega

end FileIndexer

namespace FileIndexer

/-! ### Correctness of `_siftup` -/

theorem eq_false_of_ne_true {b : Bool} (h : ¬ b = true) : b = false := by
  cases b with
  | false => rfl
  | true => exact absurd rfl h

theorem siftupLoop_step (fuel : Nat) (h : List Entry) (pos : Nat) (hg : 2*pos+1 < h.length) :
    siftupLoop (fuel+1) h pos =
      siftupLoop fuel (h.set pos (h.getD (siftupChild h pos) dEnt)) (siftupChild h pos) := by
  simp only [siftupLoop]
  rw [if_pos hg]

theorem siftupLoop_stop (fuel : Nat) (h : List Entry) (pos : Nat) (hg : ¬ 2*pos+1 < h.length) :
    siftupLoop (fuel+1) h pos = (h, pos) := by
  simp only [siftupLoop]
  rw [if_neg hg]

/-- The chosen child of `_siftup` is a child of `pos`, in range, and at
most each child of `pos`. -/
theorem siftupChild_spec (h : List Entry) (pos : Nat) (hg : 2*pos+1 < h.length) :
    parentIdx (siftupChild h pos) = pos ∧ siftupChild h pos < h.length ∧
    pos < siftupChild h pos ∧
    (∀ o, 0 < o → o < h.length → parentIdx o = pos →
      entLE (h.getD (siftupChild h pos) dEnt) (h.getD o dEnt)) := by
  unfold siftupChild
  by_cases hcond : (decide (2*pos+2 < h.length) &&
      !(entLt (h.getD (2*pos+1) dEnt) (h.getD (2*pos+2) dEnt))) = true
  · rw [if_pos hcond]
    simp only [Bool.and_eq_true, Bool.not_eq_true', decide_eq_true_eq] at hcond
    refine ⟨parentIdx_child_right pos, hcond.1, by omega, ?_⟩
    intro o ho holen hpo
    rcases child_of_parentIdx ho with hoc | hoc
    · rw [hpo] at hoc
      rw [hoc]
      exact hcond.2
    · rw [hpo] at hoc
      rw [hoc]
      exact entLE_refl _
  · rw [if_neg hcond]
    refine ⟨parentIdx_child_left pos, hg, by omega, ?_⟩
    intro o ho holen hpo
    rcases child_of_parentIdx ho with hoc | hoc
    · rw [hpo] at hoc
      rw [hoc]
      exact entLE_refl _
    · rw [hpo] at hoc
      have hr : 2*pos+2 < h.length := by rw [hoc] at holen; exact holen
      rw [hoc]
      have hlt : entLt (h.getD (2*pos+1) dEnt) (h.getD (2*pos+2) dEnt) = true := by
        by_contra hx
        have hfx := eq_false_of_ne_true hx
        refine hcond ?_
        rw [hfx]
        simp [hr]
      exact entLE_of_lt hlt

theorem siftupLoop_spec (i : Nat) : ∀ (fuel : Nat) (h : List Entry) (pos : Nat),
    h.length ≤ fuel + pos → pos < h.length → InSub i pos →
    (∀ j, 0 < j → j < h.length → parentIdx j ≠ pos → InSub i (parentIdx j) →
      entLE (h.getD (parentIdx j) dEnt) (h.getD j dEnt)) →
    (i < pos → ∀ j, 0 < j → j < h.length → parentIdx j = pos →
      entLE (h.getD (parentIdx pos) dEnt) (h.getD j dEnt)) →
    (siftupLoop fuel h pos).1.length = h.length ∧
    InSub i (siftupLoop fuel h pos).2 ∧
    (siftupLoop fuel h pos).2 < h.length ∧
    h.length ≤ 2 * (siftupLoop fuel h pos).2 + 1 ∧
    (∀ j, 0 < j → j < h.length → j ≠ (siftupLoop fuel h pos).2 → InSub i (parentIdx j) →
      entLE ((siftupLoop fuel h pos).1.getD (parentIdx j) dEnt)
        ((siftupLoop fuel h pos).1.getD j dEnt)) ∧
    (h.getD pos dEnt) ::ₘ (↑(siftupLoop fuel h pos).1 : Multiset Entry) =
      ((siftupLoop fuel h pos).1.getD (siftupLoop fuel h pos).2 dEnt) ::ₘ (↑h : Multiset Entry) ∧
    (∀ j, ¬ InSub i j → (siftupLoop fuel h pos).1.getD j dEnt = h.getD j dEnt) := by
  intro fuel
  induction fuel with
  | zero =>
    intro h pos hfuel hlen hin hA hC
    exfalso; omega
  | succ fuel ih =>
    intro h pos hfuel hlen hin hA hC
    by_cases hg : 2*pos+1 < h.length
    · obtain ⟨hcp, hclen, hcgt, hcmin⟩ := siftupChild_spec h pos hg
      rw [siftupLoop_step fuel h pos hg]
      have hcpos : 0 < siftupChild h pos := by omega
      have hnec : siftupChild h pos ≠ pos := by omega
      have hlen2 : (h.set pos (h.getD (siftupChild h pos) dEnt)).length = h.length :=
        List.length_set h pos _
      have hin2 : InSub i (siftupChild h pos) := by
        refine InSub_of_parent hcpos ?_
        rw [hcp]; exact hin
      have hget_c : (h.set pos (h.getD (siftupChild h pos) dEnt)).getD (siftupChild h pos) dEnt =
          h.getD (siftupChild h pos) dEnt := getD_set_ne (Ne.symm hnec) _ dEnt
      have hA2 : ∀ j, 0 < j → j < (h.set pos (h.getD (siftupChild h pos) dEnt)).length →
          parentIdx j ≠ siftupChild h pos → InSub i (parentIdx j) →
          entLE ((h.set pos (h.getD (siftupChild h pos) dEnt)).getD (parentIdx j) dEnt)
            ((h.set pos (h.getD (siftupChild h pos) dEnt)).getD j dEnt) := by
        intro j hj hjlen hjne hjin
        rw [hlen2] at hjlen
        by_cases hjpos : j = pos
        · have hppne : pos ≠ parentIdx pos := by
            have := parentIdx_lt (hjpos ▸ hj)
            omega
          rw [hjpos, getD_set_ne hppne _ dEnt, getD_set_self hlen _ dEnt]
          by_cases hip : i < pos
          · exact hC hip (siftupChild h pos) hcpos hclen hcp
          · exfalso
            have hpi : pos = i := by
              have := hin.le
              omega
            have hj2 : 0 < pos := hjpos ▸ hj
            have hle2 : i ≤ parentIdx pos := by
              have := (hjpos ▸ hjin).le
              exact this
            have := parentIdx_lt hj2
            omega
        · by_cases hpj : parentIdx j = pos
          · by_cases hjc : j = siftupChild h pos
            · rw [hpj, getD_set_self hlen _ dEnt, hjc, hget_c]
              exact entLE_refl _
            · rw [hpj, getD_set_self hlen _ dEnt, getD_set_ne (Ne.symm hjpos) _ dEnt]
              exact hcmin j hj hjlen hpj
          · rw [getD_set_ne (fun hh => hpj hh.symm) _ dEnt, getD_set_ne (Ne.symm hjpos) _ dEnt]
            exact hA j hj hjlen hpj hjin
      have hC2 : i < siftupChild h pos →
          ∀ j, 0 < j → j < (h.set pos (h.getD (siftupChild h pos) dEnt)).length →
          parentIdx j = siftupChild h pos →
          entLE ((h.set pos (h.getD (siftupChild h pos) dEnt)).getD
            (parentIdx (siftupChild h pos)) dEnt)
            ((h.set pos (h.getD (siftupChild h pos) dEnt)).getD j dEnt) := by
        intro _ j hj hjlen hpj
        rw [hlen2] at hjlen
        have hjgt : siftupChild h pos < j := by
          have := parentIdx_lt hj
          omega
        have hjnepos : j ≠ pos := by omega
        have hpjnepos : parentIdx j ≠ pos := by
          rw [hpj]; omega
        rw [hcp, getD_set_self hlen _ dEnt, getD_set_ne (Ne.symm hjnepos) _ dEnt]
        have hedge := hA j hj hjlen hpjnepos (by rw [hpj]; exact hin2)
        rw [hpj] at hedge
        exact hedge
      obtain ⟨ihlen, ihin, ihlt, ihleaf, ihA, ihms, ihfr⟩ :=
        ih (h.set pos (h.getD (siftupChild h pos) dEnt)) (siftupChild h pos)
          (by omega) (by omega) hin2 hA2 hC2
      rw [hlen2] at ihlen ihlt ihleaf
      refine ⟨ihlen, ihin, ihlt, ihleaf, ?_, ?_, ?_⟩
      · intro j hj hjlen hjne hjin
        refine ihA j hj ?_ hjne hjin
        omega
      · rw [hget_c] at ihms
        have hcoe : (h.getD pos dEnt) ::ₘ
            (↑(h.set pos (h.getD (siftupChild h pos) dEnt)) : Multiset Entry) =
            (h.getD (siftupChild h pos) dEnt) ::ₘ (↑h : Multiset Entry) :=
          coe_set_cons hlen _ dEnt
        have hkey : (h.getD (siftupChild h pos) dEnt) ::ₘ ((h.getD pos dEnt) ::ₘ
            (↑(siftupLoop fuel (h.set pos (h.getD (siftupChild h pos) dEnt))
              (siftupChild h pos)).1 : Multiset Entry)) =
            (h.getD (siftupChild h pos) dEnt) ::ₘ
            (((siftupLoop fuel (h.set pos (h.getD (siftupChild h pos) dEnt))
              (siftupChild h pos)).1.getD
              (siftupLoop fuel (h.set pos (h.getD (siftupChild h pos) dEnt))
                (siftupChild h pos)).2 dEnt) ::ₘ (↑h : Multiset Entry)) := by
          rw [Multiset.cons_swap, ihms, Multiset.cons_swap, hcoe, Multiset.cons_swap]
        exact (Multiset.cons_inj_right _).mp hkey
      · intro j hjout
        rw [ihfr j hjout]
        have hne2 : pos ≠ j := fun hh => hjout (hh ▸ hin)
        exact getD_set_ne hne2 _ dEnt
    · rw [siftupLoop_stop fuel h pos hg]
      refine ⟨rfl, hin, hlen, by omega, ?_, rfl, fun j _ => rfl⟩
      intro j hj hjlen hjne hjin
      by_cases hpj : parentIdx j = pos
      · exfalso
        rcases child_of_parentIdx hj with hc | hc
        · rw [hpj] at hc; omega
        · rw [hpj] at hc; omega
      · exact hA j hj hjlen hpj hjin

end FileIndexer

namespace FileIndexer

/-- Composite specification of `_siftup`: given heap subtrees below `i`, it
permutes the entries, establishes the heap invariant on the subtree at `i`
and leaves positions outside the subtree unchanged. -/
theorem siftup_spec (h : List Entry) (i : Nat) (hlen : i < h.length)
    (hbelow : ∀ j, 0 < j → j < h.length → parentIdx j ≠ i → InSub i (parentIdx j) →
      entLE (h.getD (parentIdx j) dEnt) (h.getD j dEnt)) :
    (siftup h i).length = h.length ∧
    SubHeap (siftup h i) i ∧
    (↑(siftup h i) : Multiset Entry) = (↑h : Multiset Entry) ∧
    (∀ j, ¬ InSub i j → (siftup h i).getD j dEnt = h.getD j dEnt) := by
  obtain ⟨ph_len, ph_in, ph_lt, ph_leaf, ph_A, ph_ms, ph_fr⟩ :=
    siftupLoop_spec i h.length h i (by omega) hlen InSub.refl hbelow
      (fun hip => absurd hip (lt_irrefl i))
  set h2 := (siftupLoop h.length h i).1 with hh2
  set fpos := (siftupLoop h.length h i).2 with hfpos
  have hfpos_lt : fpos < h2.length := by omega
  have hdef : siftup h i =
      siftdownLoop fpos (h2.set fpos (h.getD i dEnt)) i fpos
        ((h2.set fpos (h.getD i dEnt)).getD fpos dEnt) := rfl
  have hget_fp : (h2.set fpos (h.getD i dEnt)).getD fpos dEnt = h.getD i dEnt :=
    getD_set_self hfpos_lt _ dEnt
  have hset_len : (h2.set fpos (h.getD i dEnt)).length = h.length := by
    rw [List.length_set]; exact ph_len
  have hsA : ∀ j, 0 < j → j < (h2.set fpos (h.getD i dEnt)).length → j ≠ fpos →
      InSub i (parentIdx j) →
      entLE ((h2.set fpos (h.getD i dEnt)).getD (parentIdx j) dEnt)
        ((h2.set fpos (h.getD i dEnt)).getD j dEnt) := by
    intro j hj hjlen hjne hjin
    rw [hset_len] at hjlen
    have hpne : parentIdx j ≠ fpos := by
      intro heq
      rcases child_of_parentIdx hj with hc | hc
      · rw [heq] at hc; omega
      · rw [heq] at hc; omega
    rw [getD_set_ne (fun hx => hpne hx.symm) _ dEnt, getD_set_ne (Ne.symm hjne) _ dEnt]
    exact ph_A j hj hjlen hjne hjin
  have hsB : ∀ j, 0 < j → j < (h2.set fpos (h.getD i dEnt)).length → parentIdx j = fpos →
      entLE ((h2.set fpos (h.getD i dEnt)).getD fpos dEnt)
        ((h2.set fpos (h.getD i dEnt)).getD j dEnt) := by
    intro j hj hjlen hjp
    rw [hset_len] at hjlen
    exfalso
    rcases child_of_parentIdx hj with hc | hc
    · rw [hjp] at hc; omega
    · rw [hjp] at hc; omega
  obtain ⟨sd_len, sd_sh, sd_ms, sd_fr⟩ :=
    siftdownLoop_spec i fpos (h2.set fpos (h.getD i dEnt)) fpos
      ((h2.set fpos (h.getD i dEnt)).getD fpos dEnt)
      (Nat.le_refl fpos) (by omega) ph_in hsA
      (by rw [hget_fp] at hsB ⊢; exact hsB)
      (by intro _ j hj hjlen hjp; exfalso
          rw [hset_len] at hjlen
          rcases child_of_parentIdx hj with hc | hc
          · rw [hjp] at hc; omega
          · rw [hjp] at hc; omega)
  rw [← hdef] at sd_len sd_sh sd_ms sd_fr
  have hcoe_set : (h2.getD fpos dEnt) ::ₘ (↑(h2.set fpos (h.getD i dEnt)) : Multiset Entry) =
      (h.getD i dEnt) ::ₘ (↑h2 : Multiset Entry) := coe_set_cons hfpos_lt _ dEnt
  have hset_coe : (↑(h2.set fpos (h.getD i dEnt)) : Multiset Entry) = (↑h : Multiset Entry) := by
    have hkey : (h2.getD fpos dEnt) ::ₘ (↑(h2.set fpos (h.getD i dEnt)) : Multiset Entry) =
        (h2.getD fpos dEnt) ::ₘ (↑h : Multiset Entry) := by
      rw [hcoe_set, ph_ms]
    exact (Multiset.cons_inj_right _).mp hkey
  refine ⟨by rw [sd_len, hset_len], sd_sh, ?_, ?_⟩
  · have hms2 := sd_ms
    rw [hget_fp] at hms2
    have hkey2 : (h.getD i dEnt) ::ₘ (↑(siftup h i) : Multiset Entry) =
        (h.getD i dEnt) ::ₘ (↑h : Multiset Entry) := by
      rw [hms2, hset_coe]
    exact (Multiset.cons_inj_right _).mp hkey2
  · intro j hjout
    rw [sd_fr j hjout]
    have hne2 : fpos ≠ j := fun hh => hjout (hh ▸ ph_in)
    rw [getD_set_ne hne2 _ dEnt]
    exact ph_fr j hjout

/-- Specification of `heappush` on a heap. -/
theorem heappush_spec (h : List Entry) (x : Entry) (hh : IsHeap h) :
    (heappush h x).length = h.length + 1 ∧
    IsHeap (heappush h x) ∧
    (↑(heappush h x) : Multiset Entry) = x ::ₘ (↑h : Multiset Entry) := by
  have hlen : h.length < (h ++ [x]).length := by simp
  have hget : (h ++ [x]).getD h.length dEnt = x := getD_append_right_self h x dEnt
  have hdef : heappush h x =
      siftdownLoop h.length (h ++ [x]) 0 h.length ((h ++ [x]).getD h.length dEnt) := rfl
  have hA : ∀ j, 0 < j → j < (h ++ [x]).length → j ≠ h.length → InSub 0 (parentIdx j) →
      entLE ((h ++ [x]).getD (parentIdx j) dEnt) ((h ++ [x]).getD j dEnt) := by
    intro j hj hjlen hjne _
    have hjl : j < h.length := by
      simp at hjlen
      omega
    have hpl : parentIdx j < h.length := Nat.lt_of_le_of_lt (Nat.le_of_lt (parentIdx_lt hj)) hjl
    rw [getD_append_left hpl dEnt, getD_append_left hjl dEnt]
    exact hh j hj hjl
  have hB : ∀ j, 0 < j → j < (h ++ [x]).length → parentIdx j = h.length →
      entLE ((h ++ [x]).getD h.length dEnt) ((h ++ [x]).getD j dEnt) := by
    intro j hj hjlen hjp
    exfalso
    simp at hjlen
    rcases child_of_parentIdx hj with hc | hc
    · rw [hjp] at hc; omega
    · rw [hjp] at hc; omega
  obtain ⟨sd_len, sd_sh, sd_ms, _⟩ :=
    siftdownLoop_spec 0 h.length (h ++ [x]) h.length ((h ++ [x]).getD h.length dEnt)
      (Nat.le_refl _) hlen (InSub_zero _) hA (hget ▸ hB)
      (by intro _ j hj hjlen hjp; exfalso
          simp at hjlen
          rcases child_of_parentIdx hj with hc | hc
          · rw [hjp] at hc; omega
          · rw [hjp] at hc; omega)
  rw [← hdef] at sd_len sd_sh sd_ms
  refine ⟨by rw [sd_len]; simp, (IsHeap_iff_SubHeap_zero _).mpr sd_sh, ?_⟩
  rw [hget] at sd_ms
  have happ : (↑(h ++ [x]) : Multiset Entry) = x ::ₘ (↑h : Multiset Entry) := by
    show ((h : Multiset Entry) + ([x] : List Entry)) = x ::ₘ (h : Multiset Entry)
    rw [add_comm]
    rfl
  have hkey : x ::ₘ (↑(heappush h x) : Multiset Entry) =
      x ::ₘ (x ::ₘ (↑h : Multiset Entry)) := by
    rw [sd_ms, happ]
  exact (Multiset.cons_inj_right _).mp hkey

/-- Specification of `heappop` on a non-empty heap: it returns the root,
and the remaining entries form a heap again. -/
theorem heappop_spec (h : List Entry) (hh : IsHeap h) (hne : h ≠ []) :
    ∃ h2, heappop h = some (h.getD 0 dEnt, h2) ∧
      IsHeap h2 ∧ h2.length = h.length - 1 ∧
      (h.getD 0 dEnt) ::ₘ (↑h2 : Multiset Entry) = (↑h : Multiset Entry) := by
  have hlast : h.getLast? = some (h.getLast hne) := List.getLast?_eq_getLast h hne
  by_cases hone : h.length = 1
  · have hsingle : h = [h.getD 0 dEnt] := by
      cases h with
      | nil => simp at hone
      | cons a t =>
        cases t with
        | nil => rfl
        | cons b t2 => simp at hone
    refine ⟨[], ?_, ?_, by rw [hsingle]; rfl, by rw [hsingle]; rfl⟩
    · rw [hsingle]
      rfl
    · intro j hj hjlen
      simp at hjlen
  · have hlen2 : 2 ≤ h.length := by
      have : h.length ≠ 0 := by
        intro hz
        exact hne (List.length_eq_zero.mp hz)
      omega
    have hrest_len : h.dropLast.length = h.length - 1 := List.length_dropLast h
    have hrest_ne : ¬ h.dropLast.isEmpty = true := by
      rw [List.isEmpty_iff]
      intro hz
      have : h.dropLast.length = 0 := by rw [hz]; rfl
      omega
    have hdef : heappop h =
        some (h.dropLast.getD 0 dEnt,
          siftup (h.dropLast.set 0 (h.getLast hne)) 0) := by
      unfold heappop
      rw [hlast]
      show (if h.dropLast.isEmpty = true then some (h.getLast hne, [])
        else some (h.dropLast.getD 0 dEnt, siftup (h.dropLast.set 0 (h.getLast hne)) 0)) = _
      rw [if_neg hrest_ne]
    have hget0 : h.dropLast.getD 0 dEnt = h.getD 0 dEnt := getD_dropLast (by omega) dEnt
    have hr0len : (h.dropLast.set 0 (h.getLast hne)).length = h.length - 1 := by
      rw [List.length_set]; exact hrest_len
    have hbelow : ∀ j, 0 < j → j < (h.dropLast.set 0 (h.getLast hne)).length →
        parentIdx j ≠ 0 → InSub 0 (parentIdx j) →
        entLE ((h.dropLast.set 0 (h.getLast hne)).getD (parentIdx j) dEnt)
          ((h.dropLast.set 0 (h.getLast hne)).getD j dEnt) := by
      intro j hj hjlen hpne _
      rw [hr0len] at hjlen
      have hjne0 : j ≠ 0 := by omega
      have hplt := parentIdx_lt hj
      have hppos : 0 < parentIdx j := Nat.pos_of_ne_zero hpne
      rw [getD_set_ne (fun hx => hpne hx.symm) _ dEnt, getD_set_ne (Ne.symm hjne0) _ dEnt]
      rw [getD_dropLast (by omega) dEnt,
        getD_dropLast (by
          have := parentIdx_lt hj
          omega) dEnt]
      exact hh j hj (by omega)
    obtain ⟨su_len, su_sh, su_ms, _⟩ :=
      siftup_spec (h.dropLast.set 0 (h.getLast hne)) 0 (by omega) hbelow
    refine ⟨siftup (h.dropLast.set 0 (h.getLast hne)) 0, by rw [hdef, hget0], ?_, ?_, ?_⟩
    · exact (IsHeap_iff_SubHeap_zero _).mpr su_sh
    · rw [su_len, hr0len]
    · rw [su_ms]
      have hcoe : (h.dropLast.getD 0 dEnt) ::ₘ
          (↑(h.dropLast.set 0 (h.getLast hne)) : Multiset Entry) =
          (h.getLast hne) ::ₘ (↑h.dropLast : Multiset Entry) :=
        coe_set_cons (by omega) _ dEnt
      rw [hget0] at hcoe
      rw [hcoe]
      have happ : (↑(h.dropLast ++ [h.getLast hne]) : Multiset Entry) =
          (h.getLast hne) ::ₘ (↑h.dropLast : Multiset Entry) := by
        show ((h.dropLast : Multiset Entry) + ([h.getLast hne] : List Entry)) = _
        rw [add_comm]
        rfl
      rw [← happ, List.dropLast_append_getLast hne]

/-- Specification of the `heapify` fold: processing indices `k-1, …, 0`
turns subtree-heaps above `k` into subtree-heaps everywhere. -/
theorem heapify_fold_spec : ∀ (k : Nat) (h : List Entry), 2*k ≤ h.length →
    (∀ j, k ≤ j → SubHeap h j) →
    ((List.range k).reverse.foldl (fun acc idx => siftup acc idx) h).length = h.length ∧
    (∀ j, SubHeap ((List.range k).reverse.foldl (fun acc idx => siftup acc idx) h) j) ∧
    (↑((List.range k).reverse.foldl (fun acc idx => siftup acc idx) h) : Multiset Entry) =
      (↑h : Multiset Entry) := by
  intro k
  induction k with
  | zero =>
    intro h _ hall
    exact ⟨rfl, fun j => hall j (Nat.zero_le j), rfl⟩
  | succ k ih =>
    intro h hkle hall
    have hrev : (List.range (k+1)).reverse = k :: (List.range k).reverse := by
      rw [List.range_succ, List.reverse_append]
      rfl
    rw [hrev, List.foldl_cons]
    have hklen : k < h.length := by omega
    have hbelow : ∀ j, 0 < j → j < h.length → parentIdx j ≠ k → InSub k (parentIdx j) →
        entLE (h.getD (parentIdx j) dEnt) (h.getD j dEnt) := by
      intro j hj hjlen hpne hpin
      rcases InSub_split hpin hpne with hs | hs
      · exact hall (2*k+1) (by omega) j hj hjlen hs
      · exact hall (2*k+2) (by omega) j hj hjlen hs
    obtain ⟨su_len, su_sh, su_ms, su_fr⟩ := siftup_spec h k hklen hbelow
    have hall2 : ∀ j, k ≤ j → SubHeap (siftup h k) j := by
      intro j hkj
      by_cases hjin : InSub k j
      · exact SubHeap_mono su_sh hjin
      · have hjgt : k + 1 ≤ j := by
          rcases Nat.eq_or_lt_of_le hkj with heq | hlt
          · exact absurd (heq ▸ InSub.refl) hjin
          · omega
        intro m hm hmlen hmin
        have hmin_j : InSub j m := InSub_of_parent hm hmin
        have hm_not_k : ¬ InSub k m := by
          intro hkm
          exact hjin (InSub_comparable m hkm (hmin_j) hkj)
        have hp_not_k : ¬ InSub k (parentIdx m) := by
          intro hkp
          exact hjin (InSub_comparable (parentIdx m) hkp hmin hkj)
        rw [su_fr m hm_not_k, su_fr (parentIdx m) hp_not_k]
        rw [su_len] at hmlen
        exact hall j hjgt m hm hmlen hmin
    obtain ⟨f_len, f_sh, f_ms⟩ := ih (siftup h k) (by omega) hall2
    refine ⟨by rw [f_len, su_len], f_sh, by rw [f_ms, su_ms]⟩

/-- Specification of `heapify`: the result is a heap with the same entries. -/
theorem heapify_spec (h : List Entry) :
    (heapify h).length = h.length ∧ IsHeap (heapify h) ∧
    (↑(heapify h) : Multiset Entry) = (↑h : Multiset Entry) := by
  have hstart : ∀ j, h.length / 2 ≤ j → SubHeap h j := by
    intro j hjge m hm hmlen hmin
    exfalso
    have hge : h.length / 2 ≤ parentIdx m := Nat.le_trans hjge hmin.le
    rcases child_of_parentIdx hm with hc | hc
    · omega
    · omega
  obtain ⟨f_len, f_sh, f_ms⟩ := heapify_fold_spec (h.length / 2) h (by omega) hstart
  exact ⟨f_len, (IsHeap_iff_SubHeap_zero _).mpr (f_sh 0), f_ms⟩

end FileIndexer

namespace FileIndexer

/-! ### The `WordFreqTracker` class -/

/-- ASCII lowercasing of one character, as Python 2 `str.lower` acts on
each byte. -/
def asciiLowerChar (c : Char) : Char :=
  if 'A' ≤ c ∧ c ≤ 'Z' then Char.ofNat (c.toNat + 32) else c

/-- The `word.lower()` call of `add_instance`. -/
def asciiLower (s : String) : String := String.mk (s.data.map asciiLowerChar)

/-- The tracker state: `master_counts`, `top_ten` and `num_uniq_words`
(the lock is concurrency bookkeeping, not data). -/
structure WordFreqTracker where
  master_counts : List (String × Nat)
  top_ten : List Entry
  num_uniq_words : Nat
deriving DecidableEq

/-- The state built by `WordFreqTracker.__init__`. -/
def initTracker : WordFreqTracker := ⟨[], [], 0⟩

/-- Increment the count stored with the first binding of `w`, modelling
`self.master_counts[word] += 1`. -/
def bumpFirst : List (String × Nat) → String → List (String × Nat)
  | [], _ => []
  | (k, v) :: rest, w => if k = w then (k, v+1) :: rest else (k, v) :: bumpFirst rest w

/-- The `for i, e in enumerate(self.top_ten)` loop of `__manage_top10`:
scan the slots by index; a slot holding the candidate word is overwritten
with `(candidate_freq, candidate)` and the list re-heapified, and the scan
continues on the mutated list.  The fuel equals the (invariant) list
length, which bounds the number of iterations. -/
def manageLoop (cfreq : Nat) (cand : String) : Nat → List Entry → Nat → Bool → List Entry × Bool
  | 0, tt, _, inTop => (tt, inTop)
  | fuel+1, tt, i, inTop =>
    if i < tt.length then
      if (tt.getD i dEnt).2 = cand then
        manageLoop cfreq cand fuel (heapify (tt.set i (cfreq, cand))) (i+1) true
      else
        manageLoop cfreq cand fuel tt (i+1) inTop
    else (tt, inTop)

/-- The body of `WordFreqTracker.__manage_top10` acting on the `top_ten`
list, given the candidate's updated count `cfreq`. -/
def manageTop10 (cfreq : Nat) (tt : List Entry) (cand : String) : List Entry :=
  let looped := manageLoop cfreq cand tt.length tt 0 false
  if looped.2 then looped.1
  else if looped.1.length < 10 then heappush looped.1 (cfreq, cand)
  else if (looped.1.getD 0 dEnt).1 < cfreq then
    match heappop looped.1 with
    | some p => heappush p.2 (cfreq, cand)
    | none => looped.1
  else looped.1

/-- The method `WordFreqTracker.add_instance`. -/
def addInstance (t : WordFreqTracker) (word0 : String) : WordFreqTracker :=
  let word := asciiLower word0
  let mc :=
    if (t.master_counts.lookup word).isSome then bumpFirst t.master_counts word
    else t.master_counts ++ [(word, 1)]
  let uniq :=
    if (t.master_counts.lookup word).isSome then t.num_uniq_words else t.num_uniq_words + 1
  { master_counts := mc,
    top_ten := manageTop10 ((mc.lookup word).getD 0) t.top_ten word,
    num_uniq_words := uniq }

/-- The drain loop of `print_top10`: pop the copied heap until it is
empty, collecting the popped entries in order. -/
def drainLoop : Nat → List Entry → List Entry
  | 0, _ => []
  | fuel+1, tc =>
    match heappop tc with
    | none => []
    | some p => p.1 :: drainLoop fuel p.2

/-- The method `WordFreqTracker.print_top10`: the heap is drained only on
the copy `ten_copy = self.top_ten[:]`; returns the printed lines and the
tracker state after the call. -/
def printTop10 (t : WordFreqTracker) : List String × WordFreqTracker :=
  let ten_copy := t.top_ten
  let inorder_ten := drainLoop ten_copy.length ten_copy
  ("Top 10 Most Frequent Words" ::
    (inorder_ten.reverse.enum.map
      (fun p => toString (p.1 + 1) ++ ". " ++ p.2.2 ++ ": " ++ toString p.2.1)),
   { master_counts := t.master_counts, top_ten := t.top_ten,
     num_uniq_words := t.num_uniq_words })

/-- Fold a list of words into the tracker; the state after any sequence
of `add_instance` calls. -/
def trackerOf (ws : List String) : WordFreqTracker := ws.foldl addInstance initTracker

/-- Sum of all counts stored in the frequency table. -/
def sumCounts (mc : List (String × Nat)) : Nat := (mc.map Prod.snd).sum

/-! ### The tokenizer `__word_gen` and file parsing -/

/-- The character class `[A-Za-z0-9]` matched by `re.match(non_delim, ...)`
in `__word_gen`. -/
def isWordChar (c : Char) : Bool :=
  (decide ('A' ≤ c) && decide (c ≤ 'Z')) ||
  (decide ('a' ≤ c) && decide (c ≤ 'z')) ||
  (decide ('0' ≤ c) && decide (c ≤ '9'))

/-- Outer loop of `__word_gen`: from index `start`, the inner `while`
advances past the alphanumeric run, the slice `line[start:pos]` is yielded
when longer than one character, and scanning resumes at `pos + 1`.  The
fuel `line.length` bounds the iteration count since `start` strictly
increases. -/
def wordGenAux (line : List Char) : Nat → Nat → List (List Char)
  | 0, _ => []
  | fuel+1, start =>
    if start < line.length then
      (if 1 < ((line.drop start).takeWhile isWordChar).length
        then [(line.drop start).takeWhile isWordChar] else []) ++
      wordGenAux line fuel (start + ((line.drop start).takeWhile isWordChar).length + 1)
    else []

/-- The generator `FileProcessingThread.__word_gen`, as the list of words
it yields over a line. -/
def wordGen (line : List Char) : List (List Char) := wordGenAux line line.length 0

/-- Python whitespace, as stripped by `line.strip()`. -/
def isPySpace (c : Char) : Bool :=
  c == ' ' || c == '\t' || c == '\n' || c == '\x0b' || c == '\x0c' || c == '\r'

/-- Python `str.strip()`: drop whitespace from both ends. -/
def pyStrip (l : List Char) : List Char :=
  ((l.dropWhile isPySpace).reverse.dropWhile isPySpace).reverse

/-- The words produced for one line of a file: `__word_gen(line.strip())`. -/
def wordsOfLine (line : String) : List String :=
  (wordGen (pyStrip line.data)).map String.mk

/-- The method `FileProcessingThread.__parse_file`, over a file given as
its list of lines: every word of every line is fed to `add_instance`. -/
def parseFile (t : WordFreqTracker) (lines : List String) : WordFreqTracker :=
  lines.foldl (fun acc line => (wordsOfLine line).foldl addInstance acc) t

/-- The tracker state after a pool of workers has processed the given
files (word counting is order-independent; this is the sequential
denotation). -/
def processFiles (files : List (List String)) : WordFreqTracker :=
  files.foldl parseFile initTracker

end FileIndexer

namespace FileIndexer

/-! ### The tokenizer yields exactly the maximal alphanumeric runs -/

/-- Modelled from the spec (section 4.5): scanning left to right, the
maximal contiguous runs of characters of the class `[A-Za-z0-9]`, in
order. -/
def maxAlnumRuns : List Char → List (List Char)
  | [] => []
  | c :: rest =>
    if isWordChar c then
      (c :: rest.takeWhile isWordChar) :: maxAlnumRuns (rest.dropWhile isWordChar)
    else maxAlnumRuns rest
termination_by l => l.length
decreasing_by
  · simp only [List.length_cons]
    exact Nat.lt_succ_of_le (List.dropWhile_sublist isWordChar).length_le
  · simp

theorem drop_takeWhile_length (p : Char → Bool) :
    ∀ l : List Char, l.drop ((l.takeWhile p).length) = l.dropWhile p := by
  intro l
  induction l with
  | nil => rfl
  | cons c rest ih =>
    by_cases hc : p c = true
    · simp [List.takeWhile_cons, List.dropWhile_cons, hc, ih]
    · have hcf : p c = false := eq_false_of_ne_true hc
      simp [List.takeWhile_cons, List.dropWhile_cons, hcf]

theorem dropWhile_head_false (p : Char → Bool) :
    ∀ {l : List Char} {c : Char} {cs : List Char}, l.dropWhile p = c :: cs → p c = false := by
  intro l
  induction l with
  | nil => intro c cs h; simp at h
  | cons a rest ih =>
    intro c cs h
    by_cases ha : p a = true
    · rw [List.dropWhile_cons, if_pos ha] at h
      exact ih h
    · have haf : p a = false := eq_false_of_ne_true ha
      rw [List.dropWhile_cons, if_neg (by simp [haf])] at h
      injection h with h1 _
      rw [← h1]
      exact haf

theorem maxAlnumRuns_nil : maxAlnumRuns [] = [] := by
  simp [maxAlnumRuns]

theorem maxAlnumRuns_delim {c : Char} (hc : isWordChar c = false) (rest : List Char) :
    maxAlnumRuns (c :: rest) = maxAlnumRuns rest := by
  rw [maxAlnumRuns]
  rw [if_neg (by simp [hc])]

theorem maxAlnumRuns_word {c : Char} (hc : isWordChar c = true) (rest : List Char) :
    maxAlnumRuns (c :: rest) =
      (c :: rest.takeWhile isWordChar) :: maxAlnumRuns (rest.dropWhile isWordChar) := by
  rw [maxAlnumRuns]
  rw [if_pos hc]

theorem wordGenAux_eq_runs (line : List Char) :
    ∀ (fuel start : Nat), line.length - start ≤ fuel →
    wordGenAux line fuel start =
      (maxAlnumRuns (line.drop start)).filter (fun r => decide (1 < r.length)) := by
  intro fuel
  induction fuel with
  | zero =>
    intro start hfuel
    have hge : line.length ≤ start := by omega
    rw [List.drop_eq_nil_of_le hge, maxAlnumRuns_nil]
    rfl
  | succ fuel ih =>
    intro start hfuel
    by_cases hlt : start < line.length
    · rw [wordGenAux, if_pos hlt]
      cases hr : line.drop start with
      | nil =>
        have : (line.drop start).length = 0 := by rw [hr]; rfl
        rw [List.length_drop] at this
        omega
      | cons c rest2 =>
        by_cases hc : isWordChar c = true
        · have hrun : (c :: rest2).takeWhile isWordChar = c :: rest2.takeWhile isWordChar := by
            rw [List.takeWhile_cons, if_pos hc]
          rw [hrun]
          have hdrop2 : line.drop (start + (c :: rest2.takeWhile isWordChar).length + 1) =
              (rest2.dropWhile isWordChar).drop 1 := by
            have hidx : start + (c :: rest2.takeWhile isWordChar).length + 1 =
                start + ((rest2.takeWhile isWordChar).length + 2) := by
              simp only [List.length_cons]
              omega
            rw [hidx, ← List.drop_drop ((rest2.takeWhile isWordChar).length + 2) start line, hr]
            show rest2.drop ((rest2.takeWhile isWordChar).length + 1) = _
            rw [← List.drop_drop 1 (rest2.takeWhile isWordChar).length rest2]
            rw [drop_takeWhile_length]
          have hrec := ih (start + (c :: rest2.takeWhile isWordChar).length + 1) (by
            have hL : (line.drop start).length = line.length - start := List.length_drop start line
            rw [hr] at hL
            simp at hL
            omega)
          rw [hrec, hdrop2]
          have hfilter_tail :
              (maxAlnumRuns ((rest2.dropWhile isWordChar).drop 1)).filter
                (fun r => decide (1 < r.length)) =
              (maxAlnumRuns (rest2.dropWhile isWordChar)).filter
                (fun r => decide (1 < r.length)) := by
            cases hdw : rest2.dropWhile isWordChar with
            | nil => rfl
            | cons d ds =>
              have hd : isWordChar d = false := dropWhile_head_false isWordChar hdw
              rw [show (d :: ds).drop 1 = ds from rfl, maxAlnumRuns_delim hd]
          rw [hfilter_tail, maxAlnumRuns_word hc, List.filter_cons]
          by_cases hlong : 1 < (c :: rest2.takeWhile isWordChar).length
          · rw [if_pos hlong, if_pos (by simp only [decide_eq_true_eq]; exact hlong)]
            rfl
          · rw [if_neg hlong, if_neg (by simp only [decide_eq_true_eq]; exact hlong)]
            rfl
        · have hcf : isWordChar c = false := eq_false_of_ne_true hc
          have hrun0 : (c :: rest2).takeWhile isWordChar = [] := by
            rw [List.takeWhile_cons, if_neg (by simp [hcf])]
          rw [hrun0]
          have hdrop1 : line.drop (start + ([] : List Char).length + 1) = rest2 := by
            have hidx : start + ([] : List Char).length + 1 = start + 1 := by simp
            rw [hidx, ← List.drop_drop 1 start line, hr]
            rfl
          have hrec := ih (start + ([] : List Char).length + 1) (by simp; omega)
          rw [hrec, hdrop1, maxAlnumRuns_delim hcf]
          rw [if_neg (by simp)]
          rfl
    · rw [wordGenAux, if_neg hlt]
      have hge : line.length ≤ start := by omega
      rw [List.drop_eq_nil_of_le hge, maxAlnumRuns_nil]
      rfl

/-- The tokenizer yields, in order, exactly the maximal alphanumeric runs
of the line that are longer than one character. -/
theorem wordGen_eq_runs (line : List Char) :
    wordGen line = (maxAlnumRuns line).filter (fun r => decide (1 < r.length)) := by
  have h := wordGenAux_eq_runs line line.length 0 (by omega)
  rw [wordGen, h]
  rfl

end FileIndexer

namespace FileIndexer

/-! ### Sum of counts equals the number of word instances -/

theorem sumCounts_bumpFirst : ∀ (mc : List (String × Nat)) (w : String),
    (mc.lookup w).isSome → sumCounts (bumpFirst mc w) = sumCounts mc + 1 := by
  intro mc
  induction mc with
  | nil => intro w h; simp [List.lookup] at h
  | cons kv rest ih =>
    intro w h
    obtain ⟨k, v⟩ := kv
    by_cases hk : k = w
    · rw [bumpFirst, if_pos hk]
      simp [sumCounts]
      omega
    · rw [bumpFirst, if_neg hk]
      have hbeq : (w == k) = false := beq_eq_false_iff_ne.mpr (fun he => hk he.symm)
      have hrest : (rest.lookup w).isSome := by
        simp only [List.lookup, hbeq] at h
        exact h
      have hsum := ih w hrest
      simp only [sumCounts, List.map_cons, List.sum_cons] at hsum ⊢
      omega

theorem sumCounts_addInstance (t : WordFreqTracker) (w : String) :
    sumCounts (addInstance t w).master_counts = sumCounts t.master_counts + 1 := by
  rw [addInstance]
  by_cases hs : (t.master_counts.lookup (asciiLower w)).isSome
  · simp only [hs, if_pos]
    exact sumCounts_bumpFirst t.master_counts (asciiLower w) hs
  · simp only [hs, if_neg, if_false, Bool.false_eq_true]
    simp [sumCounts]

theorem sumCounts_foldl (ws : List String) : ∀ (t : WordFreqTracker),
    sumCounts (ws.foldl addInstance t).master_counts =
      sumCounts t.master_counts + ws.length := by
  induction ws with
  | nil => intro t; rfl
  | cons w rest ih =>
    intro t
    rw [List.foldl_cons, ih, sumCounts_addInstance]
    simp only [List.length_cons]
    omega

theorem sumCounts_parseFile (lines : List String) : ∀ (t : WordFreqTracker),
    sumCounts (parseFile t lines).master_counts =
      sumCounts t.master_counts + (lines.map (fun line => (wordsOfLine line).length)).sum := by
  induction lines with
  | nil => intro t; simp [parseFile, sumCounts]
  | cons line rest ih =>
    intro t
    rw [parseFile, List.foldl_cons]
    have hone := sumCounts_foldl (wordsOfLine line) t
    show sumCounts (parseFile ((wordsOfLine line).foldl addInstance t) rest).master_counts = _
    rw [ih, hone]
    simp only [List.map_cons, List.sum_cons]
    omega

theorem sumCounts_processFiles (files : List (List String)) :
    sumCounts (processFiles files).master_counts =
      (files.map (fun lines => (lines.map (fun line => (wordsOfLine line).length)).sum)).sum := by
  rw [processFiles]
  have hgen : ∀ (fs : List (List String)) (t : WordFreqTracker),
      sumCounts (fs.foldl parseFile t).master_counts =
        sumCounts t.master_counts +
          (fs.map (fun lines => (lines.map (fun line => (wordsOfLine line).length)).sum)).sum := by
    intro fs
    induction fs with
    | nil => intro t; simp
    | cons f rest ih =>
      intro t
      rw [List.foldl_cons, ih, sumCounts_parseFile]
      simp only [List.map_cons, List.sum_cons]
      omega
  rw [hgen]
  show 0 + _ = _
  omega

end FileIndexer

namespace FileIndexer

/-! ### Dictionary lemmas for `master_counts` -/

theorem lookup_bumpFirst_self : ∀ (mc : List (String × Nat)) (w : String) (c : Nat),
    mc.lookup w = some c → (bumpFirst mc w).lookup w = some (c+1) := by
  intro mc
  induction mc with
  | nil => intro w c h; simp [List.lookup] at h
  | cons kv rest ih =>
    intro w c h
    obtain ⟨k, v⟩ := kv
    by_cases hk : k = w
    · rw [bumpFirst, if_pos hk]
      have hbeq : (w == k) = true := beq_iff_eq.mpr hk.symm
      simp only [List.lookup, hbeq] at h ⊢
      injection h with hv
      rw [hv]
    · rw [bumpFirst, if_neg hk]
      have hbeq : (w == k) = false := beq_eq_false_iff_ne.mpr (fun he => hk he.symm)
      simp only [List.lookup, hbeq] at h ⊢
      exact ih w c h

theorem lookup_bumpFirst_ne : ∀ (mc : List (String × Nat)) (w w2 : String),
    w2 ≠ w → (bumpFirst mc w).lookup w2 = mc.lookup w2 := by
  intro mc
  induction mc with
  | nil => intro w w2 _; rfl
  | cons kv rest ih =>
    intro w w2 hne
    obtain ⟨k, v⟩ := kv
    by_cases hk : k = w
    · rw [bumpFirst, if_pos hk]
      have hbeq : (w2 == k) = false := beq_eq_false_iff_ne.mpr (fun he => hne (he.trans hk))
      simp only [List.lookup, hbeq]
    · rw [bumpFirst, if_neg hk]
      by_cases hk2 : w2 = k
      · have hbeq : (w2 == k) = true := beq_iff_eq.mpr hk2
        simp only [List.lookup, hbeq]
      · have hbeq : (w2 == k) = false := beq_eq_false_iff_ne.mpr hk2
        simp only [List.lookup, hbeq]
        exact ih w w2 hne

theorem bumpFirst_keys : ∀ (mc : List (String × Nat)) (w : String),
    (bumpFirst mc w).map Prod.fst = mc.map Prod.fst := by
  intro mc
  induction mc with
  | nil => intro w; rfl
  | cons kv rest ih =>
    intro w
    obtain ⟨k, v⟩ := kv
    by_cases hk : k = w
    · rw [bumpFirst, if_pos hk]
      rfl
    · rw [bumpFirst, if_neg hk]
      simp only [List.map_cons]
      rw [ih]

theorem bumpFirst_length : ∀ (mc : List (String × Nat)) (w : String),
    (bumpFirst mc w).length = mc.length := by
  intro mc w
  have h := bumpFirst_keys mc w
  have h1 := congrArg List.length h
  simpa using h1

theorem lookup_append_some : ∀ (mc l : List (String × Nat)) (w : String) (c : Nat),
    mc.lookup w = some c → (mc ++ l).lookup w = some c := by
  intro mc
  induction mc with
  | nil => intro l w c h; simp [List.lookup] at h
  | cons kv rest ih =>
    intro l w c h
    obtain ⟨k, v⟩ := kv
    by_cases hk : (w == k) = true
    · simp only [List.lookup, hk] at h ⊢
      exact h
    · have hbeq : (w == k) = false := eq_false_of_ne_true hk
      simp only [List.cons_append, List.lookup, hbeq] at h ⊢
      exact ih l w c h

theorem lookup_append_none : ∀ (mc l : List (String × Nat)) (w : String),
    mc.lookup w = none → (mc ++ l).lookup w = l.lookup w := by
  intro mc
  induction mc with
  | nil => intro l w _; rfl
  | cons kv rest ih =>
    intro l w h
    obtain ⟨k, v⟩ := kv
    by_cases hk : (w == k) = true
    · simp only [List.lookup, hk] at h
      exact absurd h (by simp)
    · have hbeq : (w == k) = false := eq_false_of_ne_true hk
      simp only [List.cons_append, List.lookup, hbeq] at h ⊢
      exact ih l w h

theorem lookup_singleton_self (w : String) (c : Nat) :
    ([(w, c)] : List (String × Nat)).lookup w = some c := by
  simp [List.lookup]

theorem lookup_mem : ∀ (mc : List (String × Nat)) (w : String) (c : Nat),
    mc.lookup w = some c → (w, c) ∈ mc := by
  intro mc
  induction mc with
  | nil => intro w c h; simp [List.lookup] at h
  | cons kv rest ih =>
    intro w c h
    obtain ⟨k, v⟩ := kv
    by_cases hk : (w == k) = true
    · simp only [List.lookup, hk] at h
      injection h with hv
      have hkw : w = k := beq_iff_eq.mp hk
      rw [← hkw, hv]
      exact List.mem_cons_self _ _
    · have hbeq : (w == k) = false := eq_false_of_ne_true hk
      simp only [List.lookup, hbeq] at h
      exact List.mem_cons_of_mem _ (ih w c h)

theorem lookup_isSome_of_key_mem : ∀ (mc : List (String × Nat)) (w : String),
    w ∈ mc.map Prod.fst → (mc.lookup w).isSome := by
  intro mc
  induction mc with
  | nil => intro w h; simp at h
  | cons kv rest ih =>
    intro w h
    obtain ⟨k, v⟩ := kv
    by_cases hk : (w == k) = true
    · simp only [List.lookup, hk]
      rfl
    · have hbeq : (w == k) = false := eq_false_of_ne_true hk
      simp only [List.lookup, hbeq]
      refine ih w ?_
      simp only [List.map_cons, List.mem_cons] at h
      rcases h with h1 | h1
      · exact absurd (beq_iff_eq.mpr h1) hk
      · exact h1

theorem key_mem_of_lookup_isSome : ∀ (mc : List (String × Nat)) (w : String),
    (mc.lookup w).isSome → w ∈ mc.map Prod.fst := by
  intro mc w h
  cases hl : mc.lookup w with
  | none => rw [hl] at h; simp at h
  | some c =>
    have := lookup_mem mc w c hl
    exact List.mem_map.mpr ⟨(w, c), this, rfl⟩

/-! ### More list helpers -/

theorem set_getD_eq {α : Type} : ∀ {l : List α} {i : Nat} {x d : α},
    i < l.length → l.getD i d = x → l.set i x = l := by
  intro l
  induction l with
  | nil => intro i x d h; simp at h
  | cons a t ih =>
    intro i x d h hget
    cases i with
    | zero =>
      have : a = x := hget
      rw [List.set_cons_zero, this]
    | succ i =>
      have hi : i < t.length := by simpa using h
      rw [List.set_cons_succ]
      rw [ih hi hget]

theorem getD_map_snd : ∀ (l : List Entry) (i : Nat), i < l.length →
    (l.map Prod.snd).getD i "" = (l.getD i dEnt).2 := by
  intro l
  induction l with
  | nil => intro i h; simp at h
  | cons a t ih =>
    intro i h
    cases i with
    | zero => rfl
    | succ i =>
      have hi : i < t.length := by simpa using h
      exact ih i hi

theorem nodup_snd_inj : ∀ {l : List Entry}, (l.map Prod.snd).Nodup →
    ∀ a ∈ l, ∀ b ∈ l, a.2 = b.2 → a = b := by
  intro l
  induction l with
  | nil => intro _ a ha; simp at ha
  | cons e t ih =>
    intro hnd a ha b hb hab
    simp only [List.map_cons, List.nodup_cons] at hnd
    rcases List.mem_cons.mp ha with rfl | ha2 <;> rcases List.mem_cons.mp hb with rfl | hb2
    · rfl
    · exfalso
      exact hnd.1 (List.mem_map.mpr ⟨b, hb2, hab.symm⟩)
    · exfalso
      exact hnd.1 (List.mem_map.mpr ⟨a, ha2, hab⟩)
    · exact ih hnd.2 a ha2 b hb2 hab

end FileIndexer

namespace FileIndexer

/-! ### The `__manage_top10` candidate scan -/

theorem manageLoop_out (cfreq : Nat) (cand : String) (fuel : Nat) (tt : List Entry)
    (i : Nat) (inTop : Bool) (h : ¬ i < tt.length) :
    manageLoop cfreq cand (fuel+1) tt i inTop = (tt, inTop) := by
  simp only [manageLoop]
  rw [if_neg h]

theorem manageLoop_hit (cfreq : Nat) (cand : String) (fuel : Nat) (tt : List Entry)
    (i : Nat) (inTop : Bool) (h1 : i < tt.length) (h2 : (tt.getD i dEnt).2 = cand) :
    manageLoop cfreq cand (fuel+1) tt i inTop =
      manageLoop cfreq cand fuel (heapify (tt.set i (cfreq, cand))) (i+1) true := by
  simp only [manageLoop]
  rw [if_pos h1, if_pos h2]

theorem manageLoop_skip (cfreq : Nat) (cand : String) (fuel : Nat) (tt : List Entry)
    (i : Nat) (inTop : Bool) (h1 : i < tt.length) (h2 : ¬ (tt.getD i dEnt).2 = cand) :
    manageLoop cfreq cand (fuel+1) tt i inTop = manageLoop cfreq cand fuel tt (i+1) inTop := by
  simp only [manageLoop]
  rw [if_pos h1, if_neg h2]

/-- When the candidate occupies no slot, the scan leaves the list
untouched. -/
theorem manageLoop_no_match (cfreq : Nat) (cand : String) :
    ∀ (fuel : Nat) (tt : List Entry) (i : Nat) (inTop : Bool),
      (∀ e ∈ tt, e.2 ≠ cand) →
      manageLoop cfreq cand fuel tt i inTop = (tt, inTop) := by
  intro fuel
  induction fuel with
  | zero => intro tt i inTop _; rfl
  | succ fuel ih =>
    intro tt i inTop hno
    by_cases hi : i < tt.length
    · have hne : ¬ (tt.getD i dEnt).2 = cand := hno _ (getD_mem hi dEnt)
      rw [manageLoop_skip cfreq cand fuel tt i inTop hi hne]
      exact ih tt (i+1) inTop hno
    · exact manageLoop_out cfreq cand fuel tt i inTop hi

/-- After the candidate slot has been rewritten, any further matching
iterations rewrite the slot with the value it already holds and only
re-heapify, preserving the entries and the heap invariant. -/
theorem manageLoop_after (cfreq : Nat) (cand : String) :
    ∀ (fuel : Nat) (tt : List Entry) (i : Nat),
      tt.length ≤ fuel + i →
      IsHeap tt → (tt.map Prod.snd).Nodup →
      (∀ e ∈ tt, e.2 = cand → e = (cfreq, cand)) →
      IsHeap (manageLoop cfreq cand fuel tt i true).1 ∧
      (↑(manageLoop cfreq cand fuel tt i true).1 : Multiset Entry) = (↑tt : Multiset Entry) ∧
      (manageLoop cfreq cand fuel tt i true).2 = true := by
  intro fuel
  induction fuel with
  | zero => intro tt i _ hheap _ _; exact ⟨hheap, rfl, rfl⟩
  | succ fuel ih =>
    intro tt i hfuel hheap hnd huniq
    by_cases hi : i < tt.length
    · by_cases hm : (tt.getD i dEnt).2 = cand
      · rw [manageLoop_hit cfreq cand fuel tt i true hi hm]
        have hent : tt.getD i dEnt = (cfreq, cand) := huniq _ (getD_mem hi dEnt) hm
        have hsetid : tt.set i (cfreq, cand) = tt := set_getD_eq hi hent
        rw [hsetid]
        obtain ⟨hfy_len, hfy_heap, hfy_ms⟩ := heapify_spec tt
        have hperm : (heapify tt).Perm tt := Multiset.coe_eq_coe.mp hfy_ms
        obtain ⟨r_heap, r_ms, r_top⟩ := ih (heapify tt) (i+1)
          (by omega) hfy_heap ((hperm.map Prod.snd).nodup_iff.mpr hnd)
          (fun e he hc => huniq e (hperm.mem_iff.mp he) hc)
        exact ⟨r_heap, by rw [r_ms, hfy_ms], r_top⟩
      · rw [manageLoop_skip cfreq cand fuel tt i true hi hm]
        exact ih tt (i+1) (by omega) hheap hnd huniq
    · rw [manageLoop_out cfreq cand fuel tt i true hi]
      exact ⟨hheap, rfl, rfl⟩

/-- When the candidate occupies a slot at or after the scan position, the
scan replaces that slot with `(cfreq, cand)`, re-heapifies, and reports
the candidate as found. -/
theorem manageLoop_search (cfreq : Nat) (cand : String) :
    ∀ (fuel : Nat) (tt : List Entry) (i : Nat),
      tt.length ≤ fuel + i →
      (tt.map Prod.snd).Nodup →
      (∃ k, i ≤ k ∧ k < tt.length ∧ (tt.getD k dEnt).2 = cand) →
      ∃ e0, e0 ∈ tt ∧ e0.2 = cand ∧
        IsHeap (manageLoop cfreq cand fuel tt i false).1 ∧
        (e0 ::ₘ (↑(manageLoop cfreq cand fuel tt i false).1 : Multiset Entry) =
          (cfreq, cand) ::ₘ (↑tt : Multiset Entry)) ∧
        (manageLoop cfreq cand fuel tt i false).2 = true := by
  intro fuel
  induction fuel with
  | zero =>
    intro tt i hfuel _ hocc
    obtain ⟨k, hik, hklen, _⟩ := hocc
    exfalso; omega
  | succ fuel ih =>
    intro tt i hfuel hnd hocc
    obtain ⟨k, hik, hklen, hkc⟩ := hocc
    have hi : i < tt.length := Nat.lt_of_le_of_lt hik hklen
    by_cases hm : (tt.getD i dEnt).2 = cand
    · rw [manageLoop_hit cfreq cand fuel tt i false hi hm]
      have hset_len : (tt.set i (cfreq, cand)).length = tt.length := List.length_set tt i _
      have hcoe : (tt.getD i dEnt) ::ₘ (↑(tt.set i (cfreq, cand)) : Multiset Entry) =
          (cfreq, cand) ::ₘ (↑tt : Multiset Entry) := coe_set_cons hi _ dEnt
      have hwords : (tt.set i (cfreq, cand)).map Prod.snd = tt.map Prod.snd := by
        rw [List.map_set]
        have hg : (tt.map Prod.snd).getD i "" = (cfreq, cand).2 := by
          rw [getD_map_snd tt i hi]
          exact hm
        exact set_getD_eq (by simpa using hi) hg
      have hnd_set : ((tt.set i (cfreq, cand)).map Prod.snd).Nodup := by
        rw [hwords]; exact hnd
      obtain ⟨hfy_len, hfy_heap, hfy_ms⟩ := heapify_spec (tt.set i (cfreq, cand))
      have hperm : (heapify (tt.set i (cfreq, cand))).Perm (tt.set i (cfreq, cand)) :=
        Multiset.coe_eq_coe.mp hfy_ms
      have hmem_new : (cfreq, cand) ∈ tt.set i (cfreq, cand) := by
        have hgm : (tt.set i (cfreq, cand)).getD i dEnt ∈ tt.set i (cfreq, cand) :=
          getD_mem (by rw [hset_len]; exact hi) dEnt
        rw [getD_set_self hi _ dEnt] at hgm
        exact hgm
      have huniq : ∀ e ∈ heapify (tt.set i (cfreq, cand)), e.2 = cand → e = (cfreq, cand) := by
        intro e he hc
        have he2 : e ∈ tt.set i (cfreq, cand) := hperm.mem_iff.mp he
        exact nodup_snd_inj hnd_set e he2 (cfreq, cand) hmem_new hc
      obtain ⟨r_heap, r_ms, r_top⟩ := manageLoop_after cfreq cand fuel
        (heapify (tt.set i (cfreq, cand))) (i+1)
        (by rw [hfy_len, hset_len]; omega) hfy_heap
        ((hperm.map Prod.snd).nodup_iff.mpr hnd_set) huniq
      refine ⟨tt.getD i dEnt, getD_mem hi dEnt, hm, r_heap, ?_, r_top⟩
      rw [r_ms, hfy_ms, hcoe]
    · have hki : i ≠ k := by
        intro he
        rw [← he] at hkc
        exact hm hkc
      rw [manageLoop_skip cfreq cand fuel tt i false hi hm]
      exact ih tt (i+1) (by omega) hnd ⟨k, by omega, hklen, hkc⟩

end FileIndexer

namespace FileIndexer

/-! ### Case analysis of `__manage_top10` -/

/-- Case 1: the candidate already occupies a slot — that slot is replaced
with the new count and the heap re-established. -/
theorem manageTop10_in_top (tt : List Entry) (cand : String) (cfreq : Nat)
    (hnd : (tt.map Prod.snd).Nodup) (hmem : cand ∈ tt.map Prod.snd) :
    ∃ e0, e0 ∈ tt ∧ e0.2 = cand ∧ IsHeap (manageTop10 cfreq tt cand) ∧
      e0 ::ₘ (↑(manageTop10 cfreq tt cand) : Multiset Entry) =
        (cfreq, cand) ::ₘ (↑tt : Multiset Entry) := by
  obtain ⟨e, he, hec⟩ := List.mem_map.mp hmem
  obtain ⟨k, hklen, hgk⟩ := mem_getD he dEnt
  obtain ⟨e0, he0, he0c, hr_heap, hr_ms, hr_top⟩ :=
    manageLoop_search cfreq cand tt.length tt 0 (by omega) hnd
      ⟨k, Nat.zero_le k, hklen, by rw [hgk]; exact hec⟩
  refine ⟨e0, he0, he0c, ?_, ?_⟩
  · show IsHeap (manageTop10 cfreq tt cand)
    simp only [manageTop10, hr_top, if_pos]
    exact hr_heap
  · simp only [manageTop10, hr_top, if_pos]
    exact hr_ms

/-- Case 2: the candidate is absent and the list holds fewer than ten
entries — the pair is pushed. -/
theorem manageTop10_new_small (tt : List Entry) (cand : String) (cfreq : Nat)
    (hheap : IsHeap tt) (hno : ∀ e ∈ tt, e.2 ≠ cand) (hlen : tt.length < 10) :
    IsHeap (manageTop10 cfreq tt cand) ∧
      (↑(manageTop10 cfreq tt cand) : Multiset Entry) =
        (cfreq, cand) ::ₘ (↑tt : Multiset Entry) ∧
      (manageTop10 cfreq tt cand).length = tt.length + 1 := by
  have hloop := manageLoop_no_match cfreq cand tt.length tt 0 false hno
  obtain ⟨hp_len, hp_heap, hp_ms⟩ := heappush_spec tt (cfreq, cand) hheap
  have hdef : manageTop10 cfreq tt cand = heappush tt (cfreq, cand) := by
    simp only [manageTop10, hloop]
    rw [if_neg (by simp), if_pos hlen]
  rw [hdef]
  exact ⟨hp_heap, hp_ms, hp_len⟩

/-- Case 3: the candidate is absent, the list is full and the new count
beats the root — the root (a minimum) is evicted and the pair pushed. -/
theorem manageTop10_evict (tt : List Entry) (cand : String) (cfreq : Nat)
    (hheap : IsHeap tt) (hno : ∀ e ∈ tt, e.2 ≠ cand) (hlen : ¬ tt.length < 10)
    (hgt : (tt.getD 0 dEnt).1 < cfreq) :
    IsHeap (manageTop10 cfreq tt cand) ∧
      (tt.getD 0 dEnt) ::ₘ (↑(manageTop10 cfreq tt cand) : Multiset Entry) =
        (cfreq, cand) ::ₘ (↑tt : Multiset Entry) ∧
      (manageTop10 cfreq tt cand).length = tt.length := by
  have hloop := manageLoop_no_match cfreq cand tt.length tt 0 false hno
  have htne : tt ≠ [] := by
    intro hz
    rw [hz] at hlen
    simp at hlen
  obtain ⟨h2, hpop, h2_heap, h2_len, h2_ms⟩ := heappop_spec tt hheap htne
  obtain ⟨hp_len, hp_heap, hp_ms⟩ := heappush_spec h2 (cfreq, cand) h2_heap
  have hdef : manageTop10 cfreq tt cand = heappush h2 (cfreq, cand) := by
    simp only [manageTop10, hloop]
    rw [if_neg (by simp), if_neg hlen, if_pos hgt, hpop]
  rw [hdef]
  refine ⟨hp_heap, ?_, by rw [hp_len, h2_len]; omega⟩
  rw [hp_ms, Multiset.cons_swap, h2_ms]

/-- Case 4: the candidate is absent, the list is full and the new count
does not beat the root — nothing changes. -/
theorem manageTop10_keep (tt : List Entry) (cand : String) (cfreq : Nat)
    (hno : ∀ e ∈ tt, e.2 ≠ cand) (hlen : ¬ tt.length < 10)
    (hng : ¬ (tt.getD 0 dEnt).1 < cfreq) :
    manageTop10 cfreq tt cand = tt := by
  have hloop := manageLoop_no_match cfreq cand tt.length tt 0 false hno
  simp only [manageTop10, hloop]
  rw [if_neg (by simp), if_neg hlen, if_neg hng]

end FileIndexer

namespace FileIndexer

/-! ### The tracker invariant -/

/-- Invariant relating `master_counts`, `top_ten` and `num_uniq_words`,
maintained by every `add_instance` call. -/
structure Inv (t : WordFreqTracker) : Prop where
  nodupKeys : (t.master_counts.map Prod.fst).Nodup
  uniqEq : t.num_uniq_words = t.master_counts.length
  heap : IsHeap t.top_ten
  ttNodup : (t.top_ten.map Prod.snd).Nodup
  accurate : ∀ e ∈ t.top_ten, t.master_counts.lookup e.2 = some e.1
  lenEq : t.top_ten.length = min t.num_uniq_words 10
  allIn : t.top_ten.length < 10 →
    ∀ w ∈ t.master_counts.map Prod.fst, w ∈ t.top_ten.map Prod.snd
  outBound : ∀ w c, t.master_counts.lookup w = some c → w ∉ t.top_ten.map Prod.snd →
    ∀ e ∈ t.top_ten, c ≤ e.1
  countsPos : ∀ w c, t.master_counts.lookup w = some c → 1 ≤ c

theorem Inv_init : Inv initTracker := by
  refine ⟨?_, rfl, ?_, ?_, ?_, rfl, ?_, ?_, ?_⟩
  · exact List.nodup_nil
  · intro j hj hjlen; simp [initTracker] at hjlen
  · exact List.nodup_nil
  · intro e he; simp [initTracker] at he
  · intro _ w hw; simp [initTracker] at hw
  · intro w c hl; simp [initTracker, List.lookup] at hl
  · intro w c hl; simp [initTracker, List.lookup] at hl

theorem perm_of_coe {l1 l2 : List Entry} (h : (↑l1 : Multiset Entry) = (↑l2 : Multiset Entry)) :
    l1.Perm l2 := Multiset.coe_eq_coe.mp h

theorem cons_cancel_gen {r tt rest : List Entry} {e0 x : Entry}
    (hperm : tt.Perm (e0 :: rest))
    (h : e0 ::ₘ (↑r : Multiset Entry) = x ::ₘ (↑tt : Multiset Entry)) :
    (↑r : Multiset Entry) = x ::ₘ (↑rest : Multiset Entry) := by
  have hco : (↑tt : Multiset Entry) = e0 ::ₘ (↑rest : Multiset Entry) :=
    Multiset.coe_eq_coe.mpr hperm
  rw [hco, Multiset.cons_swap] at h
  exact (Multiset.cons_inj_right e0).mp h

theorem cons_cancel_to_rest {r tt : List Entry} {e0 x : Entry} (he0 : e0 ∈ tt)
    (h : e0 ::ₘ (↑r : Multiset Entry) = x ::ₘ (↑tt : Multiset Entry)) :
    ∃ rest, tt.Perm (e0 :: rest) ∧
      (↑r : Multiset Entry) = x ::ₘ (↑rest : Multiset Entry) ∧
      rest.length + 1 = tt.length := by
  have hperm := List.perm_cons_erase he0
  refine ⟨_, hperm, cons_cancel_gen hperm h, ?_⟩
  have hlen := hperm.length_eq
  simp only [List.length_cons] at hlen
  omega

theorem perm_cons_of_coe {r l : List Entry} {x : Entry}
    (h : (↑r : Multiset Entry) = x ::ₘ (↑l : Multiset Entry)) : r.Perm (x :: l) := by
  refine Multiset.coe_eq_coe.mp ?_
  rw [h]
  rfl

end FileIndexer

namespace FileIndexer

theorem lookup_append_single_ne (mc : List (String × Nat)) {w w2 : String} (c : Nat)
    (hne : w2 ≠ w) : (mc ++ [(w, c)]).lookup w2 = mc.lookup w2 := by
  cases hl : mc.lookup w2 with
  | some v => exact lookup_append_some mc [(w, c)] w2 v hl
  | none =>
    rw [lookup_append_none mc [(w, c)] w2 hl]
    have hbeq : (w2 == w) = false := beq_eq_false_iff_ne.mpr hne
    simp [List.lookup, hbeq]

/-- Every `add_instance` call preserves the tracker invariant. -/
theorem Inv_addInstance {t : WordFreqTracker} (hI : Inv t) (w0 : String) :
    Inv (addInstance t w0) := by
  obtain ⟨hKeys, hUniq, hHeap, hNd, hAcc, hLen, hAll, hOut, hPos⟩ := hI
  by_cases hs : (t.master_counts.lookup (asciiLower w0)).isSome = true
  · obtain ⟨c0, hc0⟩ := Option.isSome_iff_exists.mp hs
    have hlookup2 : (bumpFirst t.master_counts (asciiLower w0)).lookup (asciiLower w0) =
        some (c0+1) := lookup_bumpFirst_self _ _ _ hc0
    have haddEq : addInstance t w0 =
        ⟨bumpFirst t.master_counts (asciiLower w0),
         manageTop10 (c0+1) t.top_ten (asciiLower w0),
         t.num_uniq_words⟩ := by
      simp only [addInstance]
      rw [if_pos hs, if_pos hs, hlookup2]
      rfl
    rw [haddEq]
    by_cases hmem : asciiLower w0 ∈ t.top_ten.map Prod.snd
    · obtain ⟨e0, he0, he0c, hr_heap, hr_ms⟩ :=
        manageTop10_in_top t.top_ten (asciiLower w0) (c0+1) hNd hmem
      have he0acc : t.master_counts.lookup e0.2 = some e0.1 := hAcc e0 he0
      have he01 : e0.1 = c0 := by
        rw [he0c, hc0] at he0acc
        injection he0acc with hx
        exact hx.symm
      obtain ⟨rest, hperm, hrest_ms, hrest_len⟩ := cons_cancel_to_rest he0 hr_ms
      have hwords_tt : (t.top_ten.map Prod.snd).Perm (asciiLower w0 :: rest.map Prod.snd) := by
        have hmapped := hperm.map Prod.snd
        rw [List.map_cons, he0c] at hmapped
        exact hmapped
      have hnd_rest : asciiLower w0 ∉ rest.map Prod.snd ∧ (rest.map Prod.snd).Nodup := by
        have hnd2 := hwords_tt.nodup_iff.mp hNd
        simp only [List.nodup_cons] at hnd2
        exact hnd2
      have hr_perm : (manageTop10 (c0+1) t.top_ten (asciiLower w0)).Perm
          ((c0+1, asciiLower w0) :: rest) := perm_cons_of_coe hrest_ms
      have hr_words : ((manageTop10 (c0+1) t.top_ten (asciiLower w0)).map Prod.snd).Perm
          (asciiLower w0 :: rest.map Prod.snd) := by
        have hmapped := hr_perm.map Prod.snd
        rw [List.map_cons] at hmapped
        exact hmapped
      have hmem_rest_tt : ∀ e ∈ rest, e ∈ t.top_ten := by
        intro e he
        exact hperm.mem_iff.mpr (List.mem_cons_of_mem _ he)
      have hrest_ne_w : ∀ e ∈ rest, e.2 ≠ asciiLower w0 := by
        intro e he hc
        exact hnd_rest.1 (List.mem_map.mpr ⟨e, he, hc⟩)
      refine ⟨?_, ?_, hr_heap, ?_, ?_, ?_, ?_, ?_, ?_⟩
      · show ((bumpFirst t.master_counts (asciiLower w0)).map Prod.fst).Nodup
        rw [bumpFirst_keys]
        exact hKeys
      · show t.num_uniq_words = (bumpFirst t.master_counts (asciiLower w0)).length
        rw [bumpFirst_length]
        exact hUniq
      · exact hr_words.nodup_iff.mpr (List.nodup_cons.mpr ⟨hnd_rest.1, hnd_rest.2⟩)
      · intro e he
        rcases List.mem_cons.mp (hr_perm.mem_iff.mp he) with rfl | he2
        · exact hlookup2
        · show (bumpFirst t.master_counts (asciiLower w0)).lookup e.2 = some e.1
          rw [lookup_bumpFirst_ne _ _ _ (hrest_ne_w e he2)]
          exact hAcc e (hmem_rest_tt e he2)
      · show (manageTop10 (c0+1) t.top_ten (asciiLower w0)).length = min t.num_uniq_words 10
        have hlr := hr_perm.length_eq
        simp only [List.length_cons] at hlr
        omega
      · intro hlt w2 hw2
        rw [bumpFirst_keys] at hw2
        have hlr := hr_perm.length_eq
        simp only [List.length_cons] at hlr
        have hlt2 : (manageTop10 (c0+1) t.top_ten (asciiLower w0)).length < 10 := hlt
        have hlt_tt : t.top_ten.length < 10 := by omega
        have hin_tt := hAll hlt_tt w2 hw2
        exact hr_words.mem_iff.mpr (hwords_tt.mem_iff.mp hin_tt)
      · intro w2 c2 hl2 hnotin e he
        have hne_w : w2 ≠ asciiLower w0 := by
          intro heq
          refine hnotin ?_
          refine hr_words.mem_iff.mpr ?_
          rw [heq]
          exact List.mem_cons_self _ _
        rw [lookup_bumpFirst_ne _ _ _ hne_w] at hl2
        have hnotin_tt : w2 ∉ t.top_ten.map Prod.snd := by
          intro hin
          refine hnotin (hr_words.mem_iff.mpr ?_)
          exact hwords_tt.mem_iff.mp hin
        have hold := hOut w2 c2 hl2 hnotin_tt
        rcases List.mem_cons.mp (hr_perm.mem_iff.mp he) with rfl | he2
        · have hc2le : c2 ≤ e0.1 := hold e0 he0
          show c2 ≤ c0 + 1
          omega
        · exact hold e (hmem_rest_tt e he2)
      · intro w2 c2 hl2
        by_cases hne_w : w2 = asciiLower w0
        · rw [hne_w, hlookup2] at hl2
          injection hl2 with hx
          omega
        · rw [lookup_bumpFirst_ne _ _ _ hne_w] at hl2
          exact hPos w2 c2 hl2
    · have hno : ∀ e ∈ t.top_ten, e.2 ≠ asciiLower w0 :=
        fun e he hc => hmem (List.mem_map.mpr ⟨e, he, hc⟩)
      have hlen10 : ¬ t.top_ten.length < 10 := by
        intro hlt
        exact hmem (hAll hlt (asciiLower w0) (key_mem_of_lookup_isSome _ _ hs))
      by_cases hgt : (t.top_ten.getD 0 dEnt).1 < c0+1
      · obtain ⟨hr_heap, hr_ms, hr_len⟩ :=
          manageTop10_evict t.top_ten (asciiLower w0) (c0+1) hHeap hno hlen10 hgt
        have hroot_mem : t.top_ten.getD 0 dEnt ∈ t.top_ten := getD_mem (by omega) dEnt
        obtain ⟨rest, hperm, hrest_ms, hrest_len⟩ := cons_cancel_to_rest hroot_mem hr_ms
        have hwords_tt : (t.top_ten.map Prod.snd).Perm
            ((t.top_ten.getD 0 dEnt).2 :: rest.map Prod.snd) := by
          have hmapped := hperm.map Prod.snd
          rw [List.map_cons] at hmapped
          exact hmapped
        have hr_perm : (manageTop10 (c0+1) t.top_ten (asciiLower w0)).Perm
            ((c0+1, asciiLower w0) :: rest) := perm_cons_of_coe hrest_ms
        have hr_words : ((manageTop10 (c0+1) t.top_ten (asciiLower w0)).map Prod.snd).Perm
            (asciiLower w0 :: rest.map Prod.snd) := by
          have hmapped := hr_perm.map Prod.snd
          rw [List.map_cons] at hmapped
          exact hmapped
        have hmem_rest_tt : ∀ e ∈ rest, e ∈ t.top_ten := by
          intro e he
          exact hperm.mem_iff.mpr (List.mem_cons_of_mem _ he)
        have hnotin_tt : asciiLower w0 ∉ t.top_ten.map Prod.snd := hmem
        have hrest_ne_w : ∀ e ∈ rest, e.2 ≠ asciiLower w0 := by
          intro e he
          exact hno e (hmem_rest_tt e he)
        have hnd_rest : (rest.map Prod.snd).Nodup ∧
            (t.top_ten.getD 0 dEnt).2 ∉ rest.map Prod.snd := by
          have hnd2 := hwords_tt.nodup_iff.mp hNd
          simp only [List.nodup_cons] at hnd2
          exact ⟨hnd2.2, hnd2.1⟩
        refine ⟨?_, ?_, hr_heap, ?_, ?_, ?_, ?_, ?_, ?_⟩
        · show ((bumpFirst t.master_counts (asciiLower w0)).map Prod.fst).Nodup
          rw [bumpFirst_keys]
          exact hKeys
        · show t.num_uniq_words = (bumpFirst t.master_counts (asciiLower w0)).length
          rw [bumpFirst_length]
          exact hUniq
        · refine hr_words.nodup_iff.mpr (List.nodup_cons.mpr ⟨?_, hnd_rest.1⟩)
          intro hin
          obtain ⟨e, he, hec⟩ := List.mem_map.mp hin
          exact hrest_ne_w e he hec
        · intro e he
          rcases List.mem_cons.mp (hr_perm.mem_iff.mp he) with rfl | he2
          · exact hlookup2
          · show (bumpFirst t.master_counts (asciiLower w0)).lookup e.2 = some e.1
            rw [lookup_bumpFirst_ne _ _ _ (hrest_ne_w e he2)]
            exact hAcc e (hmem_rest_tt e he2)
        · show (manageTop10 (c0+1) t.top_ten (asciiLower w0)).length = min t.num_uniq_words 10
          omega
        · intro hlt
          exfalso
          have hlt2 : (manageTop10 (c0+1) t.top_ten (asciiLower w0)).length < 10 := hlt
          omega
        · intro w2 c2 hl2 hnotin e he
          have hne_w : w2 ≠ asciiLower w0 := by
            intro heq
            refine hnotin (hr_words.mem_iff.mpr ?_)
            rw [heq]
            exact List.mem_cons_self _ _
          rw [lookup_bumpFirst_ne _ _ _ hne_w] at hl2
          have hw2_nrest : w2 ∉ rest.map Prod.snd := by
            intro hin
            exact hnotin (hr_words.mem_iff.mpr (List.mem_cons_of_mem _ hin))
          by_cases hwroot : w2 = (t.top_ten.getD 0 dEnt).2
          · have hc2root : c2 = (t.top_ten.getD 0 dEnt).1 := by
              have hracc := hAcc _ hroot_mem
              rw [← hwroot] at hracc
              exact (Option.some.inj (hracc.symm.trans hl2)).symm
            rcases List.mem_cons.mp (hr_perm.mem_iff.mp he) with rfl | he2
            · show c2 ≤ c0 + 1
              omega
            · have := IsHeap_root_count_le hHeap e (hmem_rest_tt e he2)
              omega
          · have hw2_ntt : w2 ∉ t.top_ten.map Prod.snd := by
              intro hin
              rcases List.mem_cons.mp (hwords_tt.mem_iff.mp hin) with h1 | h1
              · exact hwroot h1
              · exact hw2_nrest h1
            have hold := hOut w2 c2 hl2 hw2_ntt
            rcases List.mem_cons.mp (hr_perm.mem_iff.mp he) with rfl | he2
            · have hle : c2 ≤ (t.top_ten.getD 0 dEnt).1 := hold _ hroot_mem
              show c2 ≤ c0 + 1
              omega
            · exact hold e (hmem_rest_tt e he2)
        · intro w2 c2 hl2
          by_cases hne_w : w2 = asciiLower w0
          · rw [hne_w, hlookup2] at hl2
            injection hl2 with hx
            omega
          · rw [lookup_bumpFirst_ne _ _ _ hne_w] at hl2
            exact hPos w2 c2 hl2
      · have hkeep := manageTop10_keep t.top_ten (asciiLower w0) (c0+1) hno hlen10 hgt
        rw [hkeep]
        refine ⟨?_, ?_, hHeap, hNd, ?_, ?_, ?_, ?_, ?_⟩
        · show ((bumpFirst t.master_counts (asciiLower w0)).map Prod.fst).Nodup
          rw [bumpFirst_keys]
          exact hKeys
        · show t.num_uniq_words = (bumpFirst t.master_counts (asciiLower w0)).length
          rw [bumpFirst_length]
          exact hUniq
        · intro e he
          show (bumpFirst t.master_counts (asciiLower w0)).lookup e.2 = some e.1
          rw [lookup_bumpFirst_ne _ _ _ (hno e he)]
          exact hAcc e he
        · exact hLen
        · intro hlt
          exfalso
          have hlt2 : t.top_ten.length < 10 := hlt
          exact hlen10 hlt2
        · intro w2 c2 hl2 hnotin e he
          by_cases hne_w : w2 = asciiLower w0
          · rw [hne_w, hlookup2] at hl2
            injection hl2 with hx
            have hroot_le := IsHeap_root_count_le hHeap e he
            omega
          · rw [lookup_bumpFirst_ne _ _ _ hne_w] at hl2
            exact hOut w2 c2 hl2 hnotin e he
        · intro w2 c2 hl2
          by_cases hne_w : w2 = asciiLower w0
          · rw [hne_w, hlookup2] at hl2
            injection hl2 with hx
            omega
          · rw [lookup_bumpFirst_ne _ _ _ hne_w] at hl2
            exact hPos w2 c2 hl2
  · have hnone : t.master_counts.lookup (asciiLower w0) = none :=
      Option.not_isSome_iff_eq_none.mp hs
    have hlookup1 : (t.master_counts ++ [(asciiLower w0, 1)]).lookup (asciiLower w0) =
        some 1 := by
      rw [lookup_append_none _ _ _ hnone]
      exact lookup_singleton_self _ _
    have haddEq : addInstance t w0 =
        ⟨t.master_counts ++ [(asciiLower w0, 1)],
         manageTop10 1 t.top_ten (asciiLower w0),
         t.num_uniq_words + 1⟩ := by
      simp only [addInstance]
      rw [if_neg hs, if_neg hs, hlookup1]
      rfl
    rw [haddEq]
    have hno : ∀ e ∈ t.top_ten, e.2 ≠ asciiLower w0 := by
      intro e he hc
      have := hAcc e he
      rw [hc, hnone] at this
      exact absurd this (by simp)
    have hnotin_tt : asciiLower w0 ∉ t.top_ten.map Prod.snd := by
      intro hin
      obtain ⟨e, he, hec⟩ := List.mem_map.mp hin
      exact hno e he hec
    have hw_not_key : asciiLower w0 ∉ t.master_counts.map Prod.fst := by
      intro hk
      have := lookup_isSome_of_key_mem _ _ hk
      exact hs this
    have hkeys2 : (t.master_counts ++ [(asciiLower w0, 1)]).map Prod.fst =
        t.master_counts.map Prod.fst ++ [asciiLower w0] := by
      rw [List.map_append]
      rfl
    by_cases hlt10 : t.top_ten.length < 10
    · obtain ⟨hr_heap, hr_ms, hr_len⟩ :=
        manageTop10_new_small t.top_ten (asciiLower w0) 1 hHeap hno hlt10
      have hr_perm : (manageTop10 1 t.top_ten (asciiLower w0)).Perm
          ((1, asciiLower w0) :: t.top_ten) := perm_cons_of_coe hr_ms
      have hr_words : ((manageTop10 1 t.top_ten (asciiLower w0)).map Prod.snd).Perm
          (asciiLower w0 :: t.top_ten.map Prod.snd) := by
        have hmapped := hr_perm.map Prod.snd
        rw [List.map_cons] at hmapped
        exact hmapped
      refine ⟨?_, ?_, hr_heap, ?_, ?_, ?_, ?_, ?_, ?_⟩
      · rw [hkeys2]
        refine List.nodup_append.mpr ⟨hKeys, List.nodup_singleton _, ?_⟩
        intro a ha hb
        rw [List.mem_singleton] at hb
        rw [hb] at ha
        exact hw_not_key ha
      · show t.num_uniq_words + 1 = (t.master_counts ++ [(asciiLower w0, 1)]).length
        simp only [List.length_append, List.length_singleton]
        omega
      · exact hr_words.nodup_iff.mpr (List.nodup_cons.mpr ⟨hnotin_tt, hNd⟩)
      · intro e he
        rcases List.mem_cons.mp (hr_perm.mem_iff.mp he) with rfl | he2
        · exact hlookup1
        · show (t.master_counts ++ [(asciiLower w0, 1)]).lookup e.2 = some e.1
          exact lookup_append_some _ _ _ _ (hAcc e he2)
      · show (manageTop10 1 t.top_ten (asciiLower w0)).length = min (t.num_uniq_words + 1) 10
        omega
      · intro hlt w2 hw2
        rw [hkeys2] at hw2
        rcases List.mem_append.mp hw2 with h1 | h1
        · exact hr_words.mem_iff.mpr (List.mem_cons_of_mem _ (hAll hlt10 w2 h1))
        · simp only [List.mem_singleton] at h1
          rw [h1]
          exact hr_words.mem_iff.mpr (List.mem_cons_self _ _)
      · intro w2 c2 hl2 hnotin e he
        exfalso
        have hw2key : w2 ∈ (t.master_counts ++ [(asciiLower w0, 1)]).map Prod.fst :=
          key_mem_of_lookup_isSome _ _ (by rw [hl2]; rfl)
        rw [hkeys2] at hw2key
        rcases List.mem_append.mp hw2key with h1 | h1
        · exact hnotin (hr_words.mem_iff.mpr (List.mem_cons_of_mem _ (hAll hlt10 w2 h1)))
        · simp only [List.mem_singleton] at h1
          rw [h1] at hnotin
          exact hnotin (hr_words.mem_iff.mpr (List.mem_cons_self _ _))
      · intro w2 c2 hl2
        by_cases hne_w : w2 = asciiLower w0
        · rw [hne_w, hlookup1] at hl2
          injection hl2 with hx
          omega
        · rw [lookup_append_single_ne _ _ hne_w] at hl2
          exact hPos w2 c2 hl2
    · have hroot_mem : t.top_ten.getD 0 dEnt ∈ t.top_ten := getD_mem (by omega) dEnt
      have hroot_pos : 1 ≤ (t.top_ten.getD 0 dEnt).1 :=
        hPos _ _ (hAcc _ hroot_mem)
      have hng : ¬ (t.top_ten.getD 0 dEnt).1 < 1 := by omega
      have hkeep := manageTop10_keep t.top_ten (asciiLower w0) 1 hno hlt10 hng
      rw [hkeep]
      refine ⟨?_, ?_, hHeap, hNd, ?_, ?_, ?_, ?_, ?_⟩
      · rw [hkeys2]
        refine List.nodup_append.mpr ⟨hKeys, List.nodup_singleton _, ?_⟩
        intro a ha hb
        rw [List.mem_singleton] at hb
        rw [hb] at ha
        exact hw_not_key ha
      · show t.num_uniq_words + 1 = (t.master_counts ++ [(asciiLower w0, 1)]).length
        simp only [List.length_append, List.length_singleton]
        omega
      · intro e he
        exact lookup_append_some _ _ _ _ (hAcc e he)
      · show t.top_ten.length = min (t.num_uniq_words + 1) 10
        omega
      · intro hlt
        exfalso
        have hlt2 : t.top_ten.length < 10 := hlt
        exact hlt10 hlt2
      · intro w2 c2 hl2 hnotin e he
        by_cases hne_w : w2 = asciiLower w0
        · rw [hne_w, hlookup1] at hl2
          injection hl2 with hx
          have := hPos _ _ (hAcc e he)
          omega
        · rw [lookup_append_single_ne _ _ hne_w] at hl2
          exact hOut w2 c2 hl2 hnotin e he
      · intro w2 c2 hl2
        by_cases hne_w : w2 = asciiLower w0
        · rw [hne_w, hlookup1] at hl2
          injection hl2 with hx
          omega
        · rw [lookup_append_single_ne _ _ hne_w] at hl2
          exact hPos w2 c2 hl2

end FileIndexer

namespace FileIndexer

theorem Inv_foldl (ws : List String) (t : WordFreqTracker) (hI : Inv t) :
    Inv (ws.foldl addInstance t) := by
  induction ws generalizing t with
  | nil => exact hI
  | cons w ws ih => exact ih _ (Inv_addInstance hI w)

/-- The tracker invariant holds after any sequence of `add_instance` calls. -/
theorem Inv_trackerOf (ws : List String) : Inv (trackerOf ws) :=
  Inv_foldl ws initTracker Inv_init

/-- C2: after any sequence of `add_instance` calls, `top_ten` holds the
highest-count words: for every tracked word `w` (count `c`) whose word is
not among the top-ten words, `c` is at most every count stored in
`top_ten`; and the size of `top_ten` is exactly
`min num_uniq_words 10` — it equals the number of unique words while that
is below ten and never exceeds ten. -/
theorem topTen_is_topK (ws : List String) (w : String) (c : Nat)
    (hc : (trackerOf ws).master_counts.lookup w = some c)
    (hnot : w ∉ (trackerOf ws).top_ten.map Prod.snd) :
    (∀ e ∈ (trackerOf ws).top_ten, c ≤ e.1) ∧
    (trackerOf ws).top_ten.length = min (trackerOf ws).num_uniq_words 10 := by
  have hI := Inv_trackerOf ws
  exact ⟨hI.outBound w c hc hnot, hI.lenEq⟩

theorem topTen_is_topK_witness :
    (trackerOf ["aa", "bb", "cc", "dd", "ee", "ff", "gg", "hh", "ii", "jj",
        "z"]).master_counts.lookup "z" = some 1 ∧
    "z" ∉ (trackerOf ["aa", "bb", "cc", "dd", "ee", "ff", "gg", "hh", "ii", "jj",
        "z"]).top_ten.map Prod.snd ∧
    ((∀ e ∈ (trackerOf ["aa", "bb", "cc", "dd", "ee", "ff", "gg", "hh", "ii", "jj",
        "z"]).top_ten, 1 ≤ e.1) ∧
      (trackerOf ["aa", "bb", "cc", "dd", "ee", "ff", "gg", "hh", "ii", "jj",
        "z"]).top_ten.length =
        min (trackerOf ["aa", "bb", "cc", "dd", "ee", "ff", "gg", "hh", "ii", "jj",
          "z"]).num_uniq_words 10) :=
  ⟨by decide, by decide,
   topTen_is_topK ["aa", "bb", "cc", "dd", "ee", "ff", "gg", "hh", "ii", "jj", "z"]
     "z" 1 (by decide) (by decide)⟩

/-- C3: the update `__manage_top10` for candidate `cand` with new count
`cfreq` follows exactly four cases: (1) if `cand` occupies a slot, that
slot is replaced by `(cfreq, cand)` (as multisets, one old entry for
`cand` is swapped out) and the heap invariant is restored; (2) else if
fewer than ten entries are held, `(cfreq, cand)` is pushed; (3) else if
`cfreq` beats the root — a minimum of the heap — the root is evicted and
`(cfreq, cand)` pushed; (4) else nothing changes. -/
theorem manageTop10_four_cases (tt : List Entry) (cand : String) (cfreq : Nat)
    (hheap : IsHeap tt) (hnd : (tt.map Prod.snd).Nodup) :
    (cand ∈ tt.map Prod.snd →
      ∃ e0, e0 ∈ tt ∧ e0.2 = cand ∧ IsHeap (manageTop10 cfreq tt cand) ∧
        e0 ::ₘ (↑(manageTop10 cfreq tt cand) : Multiset Entry) =
          (cfreq, cand) ::ₘ (↑tt : Multiset Entry)) ∧
    (cand ∉ tt.map Prod.snd → tt.length < 10 →
      IsHeap (manageTop10 cfreq tt cand) ∧
        (↑(manageTop10 cfreq tt cand) : Multiset Entry) =
          (cfreq, cand) ::ₘ (↑tt : Multiset Entry)) ∧
    (cand ∉ tt.map Prod.snd → ¬ tt.length < 10 → (tt.getD 0 dEnt).1 < cfreq →
      (∀ e ∈ tt, (tt.getD 0 dEnt).1 ≤ e.1) ∧
      IsHeap (manageTop10 cfreq tt cand) ∧
        (tt.getD 0 dEnt) ::ₘ (↑(manageTop10 cfreq tt cand) : Multiset Entry) =
          (cfreq, cand) ::ₘ (↑tt : Multiset Entry)) ∧
    (cand ∉ tt.map Prod.snd → ¬ tt.length < 10 → ¬ (tt.getD 0 dEnt).1 < cfreq →
      manageTop10 cfreq tt cand = tt) := by
  have hno : cand ∉ tt.map Prod.snd → ∀ e ∈ tt, e.2 ≠ cand := by
    intro hn e he hc
    exact hn (List.mem_map.mpr ⟨e, he, hc⟩)
  refine ⟨?_, ?_, ?_, ?_⟩
  · intro hmem
    exact manageTop10_in_top tt cand cfreq hnd hmem
  · intro hn hlen
    obtain ⟨h1, h2, _⟩ := manageTop10_new_small tt cand cfreq hheap (hno hn) hlen
    exact ⟨h1, h2⟩
  · intro hn hlen hgt
    obtain ⟨h1, h2, _⟩ := manageTop10_evict tt cand cfreq hheap (hno hn) hlen hgt
    exact ⟨IsHeap_root_count_le hheap, h1, h2⟩
  · intro hn hlen hng
    exact manageTop10_keep tt cand cfreq (hno hn) hlen hng

theorem manageTop10_four_cases_witness :
    IsHeap [((1 : Nat), "aa"), (2, "bb")] ∧
    (([((1 : Nat), "aa"), (2, "bb")].map Prod.snd).Nodup) ∧
    (IsHeap (manageTop10 3 [((1 : Nat), "aa"), (2, "bb")] "cc") ∧
      (↑(manageTop10 3 [((1 : Nat), "aa"), (2, "bb")] "cc") : Multiset Entry) =
        (3, "cc") ::ₘ (↑[((1 : Nat), "aa"), (2, "bb")] : Multiset Entry)) :=
  ⟨by decide, by decide,
   (manageTop10_four_cases [((1 : Nat), "aa"), (2, "bb")] "cc" 3
      (by decide) (by decide)).2.1 (by decide) (by decide)⟩

/-- C6: for every line, the tokenizer `__word_gen` yields, in
left-to-right order, exactly the maximal contiguous runs of ASCII
letters and digits of length at least two; every other character and
every length-one run produces no word, and the yielded words are the
runs themselves, not case-folded. -/
theorem wordGen_maximal_runs (line : List Char) :
    wordGen line = (maxAlnumRuns line).filter (fun r => decide (1 < r.length)) :=
  wordGen_eq_runs line

/-- C7: for every sequence of processed files, the sum of all counts in
the frequency table equals the total number of tokenizer words across
all lines of all files. -/
theorem sumCounts_eq_total_words (files : List (List String)) :
    sumCounts (processFiles files).master_counts =
      (files.map (fun lines => (lines.map (fun line => (wordsOfLine line).length)).sum)).sum :=
  sumCounts_processFiles files

/-- C10: `print_top10` does not mutate the tracker — the heap is drained
only on a copy, and `master_counts`, `top_ten` and `num_uniq_words` are
unchanged after the call. -/
theorem printTop10_no_mutation (t : WordFreqTracker) :
    ((printTop10 t).2).master_counts = t.master_counts ∧
    ((printTop10 t).2).top_ten = t.top_ten ∧
    ((printTop10 t).2).num_uniq_words = t.num_uniq_words :=
  ⟨rfl, rfl, rfl⟩

end FileIndexer

namespace FileIndexer

/-! ### The directory search thread -/

mutual

inductive FSEntry : Type where
  | file (name : String) : FSEntry
  | dir (name : String) (children : FSForest) : FSEntry

inductive FSForest : Type where
  | nil : FSForest
  | cons (e : FSEntry) (rest : FSForest) : FSForest

end

/-- A match of the regular expression `(.txt$)` starting at the head of
the list: any character other than a newline, then `txt`, then the end
of the string or a single trailing newline (Python `$`). -/
def txtMatchHere : List Char → Bool
  | a :: 't' :: 'x' :: 't' :: rest =>
      decide (a ≠ '\n') && (decide (rest = []) || decide (rest = ['\n']))
  | _ => false

/-- Python `re.search('(.txt$)', fname)`: the pattern matches starting at
some position of the name. -/
def searchTxt : List Char → Bool
  | [] => false
  | a :: rest => txtMatchHere (a :: rest) || searchTxt rest

/-- `os.path.join` on POSIX paths as used by the search thread. -/
def pathJoin (p n : String) : String := p ++ "/" ++ n

mutual

/-- `DirectorySearchThread.__find_txt_files`, one entry: a directory is
recursed into, any other entry is submitted iff `re.search('(.txt$)')`
accepts its name. -/
def visitEntry : String → FSEntry → List String
  | path, FSEntry.file n => if searchTxt n.data then [pathJoin path n] else []
  | path, FSEntry.dir n ch => visitForest (pathJoin path n) ch

/-- `DirectorySearchThread.__find_txt_files` over the listing of one
directory, in `os.listdir` order. -/
def visitForest : String → FSForest → List String
  | _, FSForest.nil => []
  | path, FSForest.cons e rest => visitEntry path e ++ visitForest path rest

end

mutual

/-- Modelled from the spec: the depth-first listing of the regular-file
entries of the tree, each with its full path and its bare name. -/
def dfsEntry : String → FSEntry → List (String × String)
  | path, FSEntry.file n => [(pathJoin path n, n)]
  | path, FSEntry.dir n ch => dfsForest (pathJoin path n) ch

def dfsForest : String → FSForest → List (String × String)
  | _, FSForest.nil => []
  | path, FSForest.cons e rest => dfsEntry path e ++ dfsForest path rest

end

mutual

theorem visitEntry_eq_filtered (path : String) (e : FSEntry) :
    visitEntry path e =
      ((dfsEntry path e).filter (fun p => searchTxt p.2.data)).map Prod.fst := by
  cases e with
  | file n =>
    show (if searchTxt n.data then [pathJoin path n] else []) = _
    by_cases hm : searchTxt n.data
    · rw [if_pos hm]
      simp [dfsEntry, hm]
    · rw [if_neg hm]
      simp [dfsEntry, hm]
  | dir n ch =>
    show visitForest (pathJoin path n) ch = _
    rw [visitForest_eq_filtered (pathJoin path n) ch]
    rfl

theorem visitForest_eq_filtered (path : String) (f : FSForest) :
    visitForest path f =
      ((dfsForest path f).filter (fun p => searchTxt p.2.data)).map Prod.fst := by
  cases f with
  | nil => rfl
  | cons e rest =>
    show visitEntry path e ++ visitForest path rest = _
    rw [visitEntry_eq_filtered path e, visitForest_eq_filtered path rest]
    show _ = ((dfsEntry path e ++ dfsForest path rest).filter _).map Prod.fst
    rw [List.filter_append, List.map_append]

end

/-- C8 (amended): the search thread visits the tree depth-first and
submits exactly those non-directory entries whose name matches the
regular expression `(.txt$)` — any non-newline character followed by
`txt` at the end of the name (a criterion weaker than ending in the
literal suffix `.txt`). -/
theorem discoverer_submits_regex_matches (path : String) (f : FSForest) :
    visitForest path f =
      ((dfsForest path f).filter (fun p => searchTxt p.2.data)).map Prod.fst :=
  visitForest_eq_filtered path f

/-- C8 counterexample: a file named `atxt` does not end in the suffix
`.txt`, yet the search thread submits it, because `re.search('(.txt$)')`
lets the `.` wildcard match the `a`. -/
theorem txt_suffix_criterion_fails :
    visitForest "root" (FSForest.cons (FSEntry.file "atxt") FSForest.nil) =
      ["root/atxt"] ∧
    ".txt".data.isSuffixOf "atxt".data = false := by
  constructor
  · rfl
  · decide

/-- The error raised by `DirectorySearchThread.run` when the root path is
not a directory. -/
inductive IndexerError : Type where
  | invalidRoot (path : String) : IndexerError

/-- The root of the search: either not a directory, or a directory with
its listing. -/
inductive RootFS : Type where
  | notDir : RootFS
  | isDir (entries : FSForest) : RootFS

/-- `DirectorySearchThread.run`: raise before any submission when the
root is not a directory, otherwise search it. Returns the submitted
paths and the error, if any. -/
def dstRun (path : String) : RootFS → List String × Option IndexerError
  | RootFS.notDir => ([], some (IndexerError.invalidRoot path))
  | RootFS.isDir es => (visitForest path es, none)

/-- C9: if the root path is not a directory the run fails with the
invalid-root error while the submission list is still empty; if the root
is a directory, no error is raised. -/
theorem invalid_root_aborts (path : String) :
    dstRun path RootFS.notDir = ([], some (IndexerError.invalidRoot path)) ∧
    ∀ es, (dstRun path (RootFS.isDir es)).2 = none :=
  ⟨rfl, fun _ => rfl⟩

end FileIndexer

namespace FileIndexer

/-! ### The worker pool under GIL-atomic interleaving -/

/-- Program counter of a worker thread inside `FileProcessingThread.run`
and `notify_thread_finished`: about to test `while file_queue:`, about to
`pop(0)`, about to decrement `live_threads` (under the lock), about to
run the unlocked end-state check, finished, or dead on an exception. -/
inductive WorkerPC : Type where
  | checkQueue : WorkerPC
  | popping : WorkerPC
  | notifyDec : WorkerPC
  | notifyCheck : WorkerPC
  | terminated : WorkerPC
  | crashed : WorkerPC
deriving DecidableEq

/-- Program counter of the main thread: `add_file` is an unlocked append
followed by the locked `__attempt_alloc_thread`; after the last file,
`wait_for_endstate` sets the flag and then runs the unlocked check. -/
inductive MainPC : Type where
  | toAppend (fp : String) (rest : List String) : MainPC
  | toAlloc (rest : List String) : MainPC
  | toSetAwait : MainPC
  | toCheckEnd : MainPC
  | finished : MainPC
deriving DecidableEq

/-- The shared state of `WorkerThreadPool` plus each thread's program
counter; each worker also records the paths it has claimed by `pop(0)`. -/
structure PoolState : Type where
  maxThreads : Int
  fileQueue : List String
  liveThreads : Int
  awaitingEndstate : Bool
  cbCount : Nat
  main : MainPC
  workers : List (WorkerPC × List String)
deriving DecidableEq

/-- `WorkerThreadPool.__is_endstate`. -/
def isEndstate (s : PoolState) : Bool :=
  s.awaitingEndstate && decide (s.liveThreads = 0) && s.fileQueue.isEmpty

/-- The main thread's continuation after an `add_file` call returns. -/
def mainAfterAdd : List String → MainPC
  | [] => MainPC.toSetAwait
  | fp :: rest => MainPC.toAppend fp rest

/-- One GIL-atomic step of the main thread. `__attempt_alloc_thread`
holds the lock, so its test-increment-spawn is one step; the append in
`add_file`, the flag assignment in `wait_for_endstate` and its unlocked
check-and-call are separate steps. -/
def mainStep (s : PoolState) : PoolState :=
  match s.main with
  | MainPC.toAppend fp rest =>
      { s with fileQueue := s.fileQueue ++ [fp], main := MainPC.toAlloc rest }
  | MainPC.toAlloc rest =>
      if s.liveThreads < s.maxThreads then
        { s with liveThreads := s.liveThreads + 1,
                 workers := s.workers ++ [(WorkerPC.checkQueue, [])],
                 main := mainAfterAdd rest }
      else { s with main := mainAfterAdd rest }
  | MainPC.toSetAwait =>
      { s with awaitingEndstate := true, main := MainPC.toCheckEnd }
  | MainPC.toCheckEnd =>
      if isEndstate s then
        { s with cbCount := s.cbCount + 1, main := MainPC.finished }
      else { s with main := MainPC.finished }
  | MainPC.finished => s

/-- One GIL-atomic step of a worker whose counter is `pc`: the new shared
state, counter and claim list. The `while` test and the `pop(0)` are
separate steps (the loop body runs unlocked); `__dec_threads` holds the
lock; the end-state check-and-call of `notify_thread_finished` runs
after the lock is released. A `pop(0)` on an empty queue raises, killing
the thread. -/
def workerStep (s : PoolState) (pc : WorkerPC) (claimed : List String) :
    PoolState × WorkerPC × List String :=
  match pc with
  | WorkerPC.checkQueue =>
      if s.fileQueue.isEmpty then (s, WorkerPC.notifyDec, claimed)
      else (s, WorkerPC.popping, claimed)
  | WorkerPC.popping =>
      match s.fileQueue with
      | [] => (s, WorkerPC.crashed, claimed)
      | fp :: rest =>
          ({ s with fileQueue := rest }, WorkerPC.checkQueue, claimed ++ [fp])
  | WorkerPC.notifyDec =>
      ({ s with liveThreads := s.liveThreads - 1 }, WorkerPC.notifyCheck, claimed)
  | WorkerPC.notifyCheck =>
      if isEndstate s then
        ({ s with cbCount := s.cbCount + 1 }, WorkerPC.terminated, claimed)
      else (s, WorkerPC.terminated, claimed)
  | WorkerPC.terminated => (s, WorkerPC.terminated, claimed)
  | WorkerPC.crashed => (s, WorkerPC.crashed, claimed)

/-- Run the `i`-th worker for one step; no worker with that index means
no change. -/
def stepWorker (s : PoolState) (i : Nat) : PoolState :=
  match s.workers.get? i with
  | none => s
  | some (pc, claimed) =>
      { (workerStep s pc claimed).1 with
        workers := s.workers.set i
          ((workerStep s pc claimed).2.1, (workerStep s pc claimed).2.2) }

/-- A scheduling event: the main thread or the `i`-th worker takes its
next atomic step. -/
inductive Event : Type where
  | stepMain : Event
  | stepOf (i : Nat) : Event
deriving DecidableEq

def applyEvent (s : PoolState) : Event → PoolState
  | Event.stepMain => mainStep s
  | Event.stepOf i => stepWorker s i

/-- The state after a whole schedule of atomic steps. -/
def runEvents (s : PoolState) (es : List Event) : PoolState :=
  es.foldl applyEvent s

/-- The pool as `main` builds it, before any thread has run: the given
thread cap, an empty queue, no live workers, the flag down, and the main
thread about to submit the files found by the directory search. -/
def initState (max : Int) (files : List String) : PoolState :=
  ⟨max, [], 0, false, 0, mainAfterAdd files, []⟩

theorem runEvents_fixed {s : PoolState} (h : ∀ e, applyEvent s e = s) :
    ∀ es, runEvents s es = s := by
  intro es
  induction es with
  | nil => rfl
  | cons e es ih =>
    show runEvents (applyEvent s e) es = s
    rw [h e]
    exact ih

end FileIndexer

namespace FileIndexer

/-- The schedule refuting C1, with two workers and two files: the main
thread submits both files, allocates both workers and declares the end
state while both are live; each worker claims a file, both observe the
empty queue, both decrement under the lock, and then both run the
unlocked end-state check of `notify_thread_finished`. -/
def doubleFireSched : List Event :=
  [Event.stepMain, Event.stepMain, Event.stepMain, Event.stepMain,
   Event.stepMain, Event.stepMain,
   Event.stepOf 0, Event.stepOf 0, Event.stepOf 1, Event.stepOf 1,
   Event.stepOf 0, Event.stepOf 1, Event.stepOf 0, Event.stepOf 1,
   Event.stepOf 0, Event.stepOf 1]

def doubleFireEnd : PoolState :=
  ⟨2, [], 0, true, 2, MainPC.finished,
    [(WorkerPC.terminated, ["a"]), (WorkerPC.terminated, ["b"])]⟩

/-- C1 is refuted: under the interleaving `doubleFireSched`, a complete
run — the main thread has returned from `wait_for_endstate`, every
worker has terminated, and no further step changes the state — ends with
the completion callback having fired twice, because the check-and-fire
in `notify_thread_finished` is not atomic across finishers. -/
theorem callback_fires_twice :
    runEvents (initState 2 ["a", "b"]) doubleFireSched = doubleFireEnd ∧
    doubleFireEnd.cbCount = 2 ∧
    (∀ e, applyEvent doubleFireEnd e = doubleFireEnd) := by
  refine ⟨by decide, rfl, ?_⟩
  intro e
  rcases e with _ | i
  · rfl
  · rcases i with _ | (_ | n) <;> rfl

/-- The schedule refuting C4, with one worker allowed and two files: the
worker drains the first file and passes the `while file_queue:` test
exit before the main thread appends the second file; the allocation
attempt then still sees `live_threads == max_threads`, so nobody is ever
allocated for the queued path. -/
def lostPathSched : List Event :=
  [Event.stepMain, Event.stepMain, Event.stepOf 0, Event.stepOf 0,
   Event.stepOf 0, Event.stepMain, Event.stepMain, Event.stepOf 0,
   Event.stepOf 0, Event.stepMain, Event.stepMain]

def lostPathEnd : PoolState :=
  ⟨1, ["b"], 0, true, 0, MainPC.finished, [(WorkerPC.terminated, ["a"])]⟩

/-- C4 is refuted: under the interleaving `lostPathSched` the run
reaches a state that no further step changes, in which the path `b`
sits in the queue forever and no worker has claimed it (and the
completion callback can never fire). -/
theorem queued_path_never_claimed :
    runEvents (initState 1 ["a", "b"]) lostPathSched = lostPathEnd ∧
    lostPathEnd.fileQueue = ["b"] ∧
    (∀ w ∈ lostPathEnd.workers, "b" ∉ w.2) ∧
    (∀ es, runEvents lostPathEnd es = lostPathEnd) := by
  refine ⟨by decide, rfl, by decide, ?_⟩
  refine runEvents_fixed ?_
  intro e
  rcases e with _ | i
  · rfl
  · rcases i with _ | n <;> rfl

end FileIndexer

namespace FileIndexer

/-- No step lowers the awaiting-endstate flag: only
`wait_for_endstate` writes it, and it writes `True`. -/
theorem step_awaiting (s : PoolState) (e : Event)
    (h : s.awaitingEndstate = true) : (applyEvent s e).awaitingEndstate = true := by
  cases e with
  | stepMain =>
    show (mainStep s).awaitingEndstate = true
    cases hm : s.main with
    | toAppend fp rest =>
      simp only [mainStep, hm]
      exact h
    | toAlloc rest =>
      simp only [mainStep, hm]
      by_cases hlt : s.liveThreads < s.maxThreads
      · rw [if_pos hlt]
        exact h
      · rw [if_neg hlt]
        exact h
    | toSetAwait =>
      simp only [mainStep, hm]
    | toCheckEnd =>
      simp only [mainStep, hm]
      by_cases hend : isEndstate s
      · rw [if_pos hend]
        exact h
      · rw [if_neg hend]
        exact h
    | finished =>
      simp only [mainStep, hm]
      exact h
  | stepOf i =>
    show (stepWorker s i).awaitingEndstate = true
    rw [stepWorker]
    cases hw : s.workers.get? i with
    | none => exact h
    | some p =>
      obtain ⟨pc, claimed⟩ := p
      show ((workerStep s pc claimed).1).awaitingEndstate = true
      cases pc with
      | checkQueue =>
        simp only [workerStep]
        by_cases hq : s.fileQueue.isEmpty
        · rw [if_pos hq]
          exact h
        · rw [if_neg hq]
          exact h
      | popping =>
        simp only [workerStep]
        cases hfq : s.fileQueue with
        | nil => exact h
        | cons fp rest => exact h
      | notifyDec => exact h
      | notifyCheck =>
        simp only [workerStep]
        by_cases hend : isEndstate s
        · rw [if_pos hend]
          exact h
        · rw [if_neg hend]
          exact h
      | terminated => exact h
      | crashed => exact h

/-- While the awaiting-endstate flag is down, no step changes the
callback count: both call sites of the callback first test
`__is_endstate`, whose first conjunct is the flag. -/
theorem step_cb (s : PoolState) (e : Event)
    (h : s.awaitingEndstate = false) : (applyEvent s e).cbCount = s.cbCount := by
  have hend : isEndstate s = false := by
    rw [isEndstate, h]
    rfl
  have hendn : ¬ (isEndstate s = true) := by
    rw [hend]
    exact fun hc => absurd hc (by decide)
  cases e with
  | stepMain =>
    show (mainStep s).cbCount = s.cbCount
    cases hm : s.main with
    | toAppend fp rest =>
      simp only [mainStep, hm]
    | toAlloc rest =>
      simp only [mainStep, hm]
      by_cases hlt : s.liveThreads < s.maxThreads
      · rw [if_pos hlt]
      · rw [if_neg hlt]
    | toSetAwait =>
      simp only [mainStep, hm]
    | toCheckEnd =>
      simp only [mainStep, hm]
      rw [if_neg hendn]
    | finished =>
      simp only [mainStep, hm]
  | stepOf i =>
    show (stepWorker s i).cbCount = s.cbCount
    rw [stepWorker]
    cases hw : s.workers.get? i with
    | none => rfl
    | some p =>
      obtain ⟨pc, claimed⟩ := p
      show ((workerStep s pc claimed).1).cbCount = s.cbCount
      cases pc with
      | checkQueue =>
        simp only [workerStep]
        by_cases hq : s.fileQueue.isEmpty
        · rw [if_pos hq]
        · rw [if_neg hq]
      | popping =>
        simp only [workerStep]
        cases hfq : s.fileQueue with
        | nil => rfl
        | cons fp rest => rfl
      | notifyDec => rfl
      | notifyCheck =>
        simp only [workerStep]
        rw [if_neg hendn]
      | terminated => rfl
      | crashed => rfl

theorem cb_zero_of_not_awaiting_run (s : PoolState) (es : List Event)
    (h0 : s.awaitingEndstate = false → s.cbCount = 0) :
    (runEvents s es).awaitingEndstate = false → (runEvents s es).cbCount = 0 := by
  induction es generalizing s with
  | nil => exact h0
  | cons e es ih =>
    intro hA
    have hA2 : (runEvents (applyEvent s e) es).awaitingEndstate = false := hA
    show (runEvents (applyEvent s e) es).cbCount = 0
    refine ih (applyEvent s e) ?_ hA2
    intro hA1
    have hAs : s.awaitingEndstate = false := by
      cases hb : s.awaitingEndstate with
      | false => rfl
      | true =>
        rw [step_awaiting s e hb] at hA1
        exact absurd hA1 (by decide)
    rw [step_cb s e hAs]
    exact h0 hAs

/-- C5: starting from the initial pool, under every interleaving, as long
as `wait_for_endstate` has not set the awaiting-endstate flag the
completion callback has never fired — a transient empty-queue,
zero-worker state does not trigger completion. -/
theorem no_premature_callback (max : Int) (files : List String) (es : List Event)
    (h : (runEvents (initState max files) es).awaitingEndstate = false) :
    (runEvents (initState max files) es).cbCount = 0 :=
  cb_zero_of_not_awaiting_run (initState max files) es (fun _ => rfl) h

theorem no_premature_callback_witness :
    (runEvents (initState 1 ["a"])
        [Event.stepMain, Event.stepMain, Event.stepOf 0, Event.stepOf 0,
         Event.stepOf 0, Event.stepOf 0, Event.stepOf 0]).awaitingEndstate = false ∧
    (runEvents (initState 1 ["a"])
        [Event.stepMain, Event.stepMain, Event.stepOf 0, Event.stepOf 0,
         Event.stepOf 0, Event.stepOf 0, Event.stepOf 0]).cbCount = 0 :=
  ⟨by decide,
   no_premature_callback 1 ["a"]
     [Event.stepMain, Event.stepMain, Event.stepOf 0, Event.stepOf 0,
      Event.stepOf 0, Event.stepOf 0, Event.stepOf 0] (by decide)⟩

end FileIndexer
